import Mathlib

/-!
Verification development for the job-pipeline backend of the
`ai_social_post` repository (FastAPI backend under `backend/`).

The Python sources are shallowly embedded as executable Lean functions:

* `backend/services.py`: `_coerce_response_to_str`, `_extract_json_from_text`
  (with models of `json.loads`, `ast.literal_eval` and the regular
  expressions it uses), `create_job`, `run_job` (its status writes and its
  post-image integrity sweep), `generate_post_variants_with_langchain`,
  `create_fallback_variants`, `regenerate_content`;
* `backend/api.py`: the status guards of `cancel_post` and
  `regenerate_post`;
* `backend/utils.py`: `truncate_text`.

Python strings are embedded as `List Char`.  JSON-like values (Python
objects produced by `json.loads` / `ast.literal_eval`, and the values fed
to `json.dumps`) are embedded as the mutual inductive `JValue`
(numbers restricted to integers: the pipeline never produces or consumes
float payloads in the modelled paths, and floating point is outside the
embedding).  Filesystem and database state are explicit records, and the
unreliable network/generation collaborators are oracle arguments.
-/

namespace AiSocialPost

/-! ### Characters and small string helpers -/

/-- The double-quote character. -/
def qChar : Char := Char.ofNat 34

/-- The single-quote (apostrophe) character. -/
def apChar : Char := Char.ofNat 39

/-- The backslash character. -/
def bsChar : Char := Char.ofNat 92

/-- The backtick character. -/
def btChar : Char := Char.ofNat 96

/-- The newline character. -/
def nlChar : Char := Char.ofNat 10

/-- ASCII whitespace recognised by `json.loads` between tokens. -/
def isJsonWs (c : Char) : Bool :=
  c = ' ' || c = Char.ofNat 9 || c = nlChar || c = Char.ofNat 13

/-- Whitespace stripped by Python `str.strip()` (ASCII portion). -/
def isPyWs (c : Char) : Bool :=
  c = ' ' || c = Char.ofNat 9 || c = nlChar || c = Char.ofNat 13 ||
  c = Char.ofNat 11 || c = Char.ofNat 12

/-- Drop leading characters satisfying `p`. -/
def dropLeading (p : Char → Bool) : List Char → List Char
  | [] => []
  | c :: l => if p c then dropLeading p l else c :: l

/-- Python `str.strip()` (model): remove leading and trailing whitespace. -/
def pyStrip (l : List Char) : List Char :=
  (dropLeading isPyWs ((dropLeading isPyWs l).reverse)).reverse

/-- Skip inter-token whitespace, as `json.loads` does. -/
def skipWs (l : List Char) : List Char := dropLeading isJsonWs l

/-- ASCII letter test, for the code-fence regular expression `[a-zA-Z]*`. -/
def isAsciiAlpha (c : Char) : Bool :=
  (97 ≤ c.toNat && c.toNat ≤ 122) || (65 ≤ c.toNat && c.toNat ≤ 90)

/-- ASCII digit test. -/
def isDigitCh (c : Char) : Bool := 48 ≤ c.toNat && c.toNat ≤ 57

/-! ### JSON-like values

Model of the Python data reachable in the pipeline: strings, integers,
booleans, `None`, lists and string-keyed dicts.  `JList` and `JObj`
mirror `List` so that mutual structural recursion and induction behave
well. -/

mutual

inductive JValue where
  | null : JValue
  | bool (b : Bool) : JValue
  | num (n : Int) : JValue
  | str (s : List Char) : JValue
  | arr (items : JList) : JValue
  | obj (members : JObj) : JValue

inductive JList where
  | nil : JList
  | cons (hd : JValue) (tl : JList) : JList

inductive JObj where
  | nil : JObj
  | cons (key : List Char) (val : JValue) (tl : JObj) : JObj

end

/-- Length of a `JList`. -/
def JList.length : JList → Nat
  | .nil => 0
  | .cons _ tl => 1 + tl.length

/-- Look up the first binding of `key` in a `JObj` (Python `dict` access;
keys produced by the pipeline are unique, later duplicates shadow is not
modelled). -/
def JObj.lookup (key : List Char) : JObj → Option JValue
  | .nil => none
  | .cons k v tl => if k = key then some v else JObj.lookup key tl

/-- Python `key in parsed` membership test. -/
def JObj.hasKey (key : List Char) (o : JObj) : Bool :=
  (o.lookup key).isSome

/-! ### `json.dumps` (model)

Default formatting of `json.dumps(..., ensure_ascii=False)`: item
separator `", "`, key separator `": "`, double-quoted strings with the
standard two-character escapes and `\u00XX` for remaining control
characters, and non-ASCII characters emitted verbatim. -/

/-- Hexadecimal digit character (lower case), for `\u00XX` escapes. -/
def hexDigitCh (n : Nat) : Char :=
  if n < 10 then Char.ofNat (48 + n) else Char.ofNat (97 + (n - 10))

/-- Serialisation of one character inside a JSON string literal. -/
def escChar (c : Char) : List Char :=
  if c = qChar then [bsChar, qChar]
  else if c = bsChar then [bsChar, bsChar]
  else if c.toNat = 8 then [bsChar, 'b']
  else if c.toNat = 9 then [bsChar, 't']
  else if c.toNat = 10 then [bsChar, 'n']
  else if c.toNat = 12 then [bsChar, 'f']
  else if c.toNat = 13 then [bsChar, 'r']
  else if c.toNat < 32 then
    [bsChar, 'u', '0', '0', hexDigitCh (c.toNat / 16), hexDigitCh (c.toNat % 16)]
  else [c]

/-- Serialisation of a JSON string body (no surrounding quotes). -/
def escStr : List Char → List Char
  | [] => []
  | c :: l => escChar c ++ escStr l

/-- Decimal digits of a natural number (`fuel`-structured so that the
kernel can evaluate it; `natDigits` supplies enough fuel). -/
def natDigitsAux : Nat → Nat → List Char
  | 0, _ => []
  | fuel + 1, n =>
    if n < 10 then [Char.ofNat (48 + n)]
    else natDigitsAux fuel (n / 10) ++ [Char.ofNat (48 + n % 10)]

/-- Decimal representation of a natural number. -/
def natDigits (n : Nat) : List Char := natDigitsAux (n + 1) n

/-- Decimal representation of an integer, as printed by `json.dumps`. -/
def intChars (n : Int) : List Char :=
  if n < 0 then '-' :: natDigits n.natAbs else natDigits n.natAbs

mutual

/-- `json.dumps` on a value. -/
def dumpsV : JValue → List Char
  | .str s => qChar :: escStr s ++ [qChar]
  | .num n => intChars n
  | .bool false => ['f', 'a', 'l', 's', 'e']
  | .bool true => ['t', 'r', 'u', 'e']
  | .null => ['n', 'u', 'l', 'l']
  | .arr .nil => ['[', ']']
  | .arr items => '[' :: dumpsItems items ++ [']']
  | .obj .nil => ['{', '}']
  | .obj members => '{' :: dumpsMembers members ++ ['}']

/-- `json.dumps` on the items of a non-empty array, `", "`-separated. -/
def dumpsItems : JList → List Char
  | .nil => []
  | .cons v .nil => dumpsV v
  | .cons v tl => dumpsV v ++ ',' :: ' ' :: dumpsItems tl

/-- `json.dumps` on the members of a non-empty object, `", "`-separated,
with `": "` between key and value. -/
def dumpsMembers : JObj → List Char
  | .nil => []
  | .cons k v .nil => qChar :: escStr k ++ qChar :: ':' :: ' ' :: dumpsV v
  | .cons k v tl =>
    qChar :: escStr k ++ qChar :: ':' :: ' ' :: dumpsV v ++ ',' :: ' ' :: dumpsMembers tl

end

/-! ### `json.loads` (model)

Recursive-descent parser for the JSON grammar over the `JValue` fragment
(strict: double-quoted strings only, raw control characters rejected,
integer numbers — a float continuation `. e E` makes the parse fail,
matching the scope restriction of the embedding). Structured on an
explicit fuel so that everything kernel-evaluates; `jsonLoads` supplies
`length + 1` fuel, which the roundtrip lemmas show is sufficient. -/

/-- Value of a hexadecimal digit character, if any. -/
def hexVal (c : Char) : Option Nat :=
  if 48 ≤ c.toNat && c.toNat ≤ 57 then some (c.toNat - 48)
  else if 97 ≤ c.toNat && c.toNat ≤ 102 then some (c.toNat - 87)
  else if 65 ≤ c.toNat && c.toNat ≤ 70 then some (c.toNat - 55)
  else none

/-- JSON string body after the opening quote: returns the decoded
characters and the input after the closing quote.  `\uXXXX` decodes to a
single character (surrogate pairs are outside the model). -/
def jpStrBody : List Char → Option (List Char × List Char)
  | [] => none
  | c :: rest =>
    if c = qChar then some ([], rest)
    else if c = bsChar then
      match rest with
      | [] => none
      | e :: r2 =>
        if e = qChar then (jpStrBody r2).map (fun p => (qChar :: p.1, p.2))
        else if e = bsChar then (jpStrBody r2).map (fun p => (bsChar :: p.1, p.2))
        else if e = '/' then (jpStrBody r2).map (fun p => ('/' :: p.1, p.2))
        else if e = 'b' then (jpStrBody r2).map (fun p => (Char.ofNat 8 :: p.1, p.2))
        else if e = 'f' then (jpStrBody r2).map (fun p => (Char.ofNat 12 :: p.1, p.2))
        else if e = 'n' then (jpStrBody r2).map (fun p => (nlChar :: p.1, p.2))
        else if e = 'r' then (jpStrBody r2).map (fun p => (Char.ofNat 13 :: p.1, p.2))
        else if e = 't' then (jpStrBody r2).map (fun p => (Char.ofNat 9 :: p.1, p.2))
        else if e = 'u' then
          match r2 with
          | h1 :: h2 :: h3 :: h4 :: r6 =>
            match hexVal h1, hexVal h2, hexVal h3, hexVal h4 with
            | some a, some b, some c3, some d =>
              (jpStrBody r6).map
                (fun p => (Char.ofNat (4096 * a + 256 * b + 16 * c3 + d) :: p.1, p.2))
            | _, _, _, _ => none
          | _ => none
        else none
    else if c.toNat < 32 then none
    else (jpStrBody rest).map (fun p => (c :: p.1, p.2))

/-- Split off a maximal run of decimal digits. -/
def takeDigits : List Char → List Char × List Char
  | [] => ([], [])
  | c :: l =>
    if isDigitCh c then
      let p := takeDigits l
      (c :: p.1, p.2)
    else ([], c :: l)

/-- Numeric value of a digit run. -/
def digitsVal (ds : List Char) : Nat :=
  ds.foldl (fun a c => a * 10 + (c.toNat - 48)) 0

/-- JSON unsigned integer token: `0` (which never extends: `01` leaves the
`1` for the context to reject) or a nonzero digit followed by digits. -/
def jpIntTok : List Char → Option (Nat × List Char)
  | [] => none
  | c :: l =>
    if c = '0' then some (0, l)
    else if isDigitCh c then
      let p := takeDigits l
      some (digitsVal (c :: p.1), p.2)
    else none

/-- After an integer token, a `.`/`e`/`E` continuation would make the
number a float, which is outside the model, so the parse fails there. -/
def jpNumTail (r : List Char) : Bool :=
  match r with
  | [] => true
  | c :: _ => !(c = '.' || c = 'e' || c = 'E')

mutual

/-- JSON value parser: skips leading whitespace, then dispatches on the
first character. -/
def jpValue : Nat → List Char → Option (JValue × List Char)
  | 0, _ => none
  | fuel + 1, l =>
    match skipWs l with
    | [] => none
    | c :: rest =>
      if c = '{' then
        match skipWs rest with
        | [] => none
        | c2 :: r2 =>
          if c2 = '}' then some (.obj .nil, r2)
          else (jpMembers1 fuel (c2 :: r2)).map (fun p => (.obj p.1, p.2))
      else if c = '[' then
        match skipWs rest with
        | [] => none
        | c2 :: r2 =>
          if c2 = ']' then some (.arr .nil, r2)
          else (jpItems1 fuel (c2 :: r2)).map (fun p => (.arr p.1, p.2))
      else if c = qChar then (jpStrBody rest).map (fun p => (.str p.1, p.2))
      else if c = '-' then
        match jpIntTok rest with
        | some p => if jpNumTail p.2 then some (.num (-(p.1 : Int)), p.2) else none
        | none => none
      else if isDigitCh c then
        match jpIntTok (c :: rest) with
        | some p => if jpNumTail p.2 then some (.num (p.1 : Int), p.2) else none
        | none => none
      else if c = 't' then
        match rest with
        | 'r' :: 'u' :: 'e' :: r => some (.bool true, r)
        | _ => none
      else if c = 'f' then
        match rest with
        | 'a' :: 'l' :: 's' :: 'e' :: r => some (.bool false, r)
        | _ => none
      else if c = 'n' then
        match rest with
        | 'u' :: 'l' :: 'l' :: r => some (.null, r)
        | _ => none
      else none

/-- One-or-more array items, comma separated, consuming the closing `]`. -/
def jpItems1 : Nat → List Char → Option (JList × List Char)
  | 0, _ => none
  | fuel + 1, l =>
    match jpValue fuel l with
    | none => none
    | some (v, r) =>
      match skipWs r with
      | ',' :: r2 => (jpItems1 fuel r2).map (fun p => (.cons v p.1, p.2))
      | ']' :: r2 => some (.cons v .nil, r2)
      | _ => none

/-- One-or-more object members, comma separated, consuming the closing
`}`.  Keys are double-quoted strings. -/
def jpMembers1 : Nat → List Char → Option (JObj × List Char)
  | 0, _ => none
  | fuel + 1, l =>
    match skipWs l with
    | [] => none
    | c :: rest =>
      if c = qChar then
        match jpStrBody rest with
        | none => none
        | some (k, r) =>
          match skipWs r with
          | ':' :: r2 =>
            match jpValue fuel r2 with
            | none => none
            | some (v, r3) =>
              match skipWs r3 with
              | ',' :: r4 => (jpMembers1 fuel r4).map (fun p => (.cons k v p.1, p.2))
              | '}' :: r4 => some (.cons k v .nil, r4)
              | _ => none
          | _ => none
      else none

end

/-- `json.loads` (model): parse one value and require only whitespace
after it. -/
def jsonLoads (l : List Char) : Option JValue :=
  match jpValue (l.length + 1) l with
  | some (v, r) => if skipWs r = [] then some v else none
  | none => none

/-! ### `ast.literal_eval` (model)

Parser for the Python literal fragment reachable from the pipeline:
single- or double-quoted strings, integers (no leading zeros),
`True`/`False`/`None`, lists, and dicts with string keys.  Tuples, sets,
floats, complex numbers and implicit string concatenation are outside
the model (the pipeline never feeds them to `ast.literal_eval`). -/

/-- Python string-literal body with delimiter `d`.  Unknown escapes keep
the backslash, as Python does; a raw line break ends the (single-line)
literal with an error. -/
def litStrBody (d : Char) : List Char → Option (List Char × List Char)
  | [] => none
  | c :: rest =>
    if c = d then some ([], rest)
    else if c = bsChar then
      match rest with
      | [] => none
      | e :: r2 =>
        if e = qChar then (litStrBody d r2).map (fun p => (qChar :: p.1, p.2))
        else if e = apChar then (litStrBody d r2).map (fun p => (apChar :: p.1, p.2))
        else if e = bsChar then (litStrBody d r2).map (fun p => (bsChar :: p.1, p.2))
        else if e = 'n' then (litStrBody d r2).map (fun p => (nlChar :: p.1, p.2))
        else if e = 't' then (litStrBody d r2).map (fun p => (Char.ofNat 9 :: p.1, p.2))
        else if e = 'r' then (litStrBody d r2).map (fun p => (Char.ofNat 13 :: p.1, p.2))
        else if e = 'b' then (litStrBody d r2).map (fun p => (Char.ofNat 8 :: p.1, p.2))
        else if e = 'f' then (litStrBody d r2).map (fun p => (Char.ofNat 12 :: p.1, p.2))
        else if e = 'v' then (litStrBody d r2).map (fun p => (Char.ofNat 11 :: p.1, p.2))
        else if e = 'u' then
          match r2 with
          | h1 :: h2 :: h3 :: h4 :: r6 =>
            match hexVal h1, hexVal h2, hexVal h3, hexVal h4 with
            | some a, some b, some c3, some d4 =>
              (litStrBody d r6).map
                (fun p => (Char.ofNat (4096 * a + 256 * b + 16 * c3 + d4) :: p.1, p.2))
            | _, _, _, _ => none
          | _ => none
        else (litStrBody d r2).map (fun p => (bsChar :: e :: p.1, p.2))
    else if c = nlChar || c.toNat = 13 then none
    else (litStrBody d rest).map (fun p => (c :: p.1, p.2))

/-- Python unsigned integer literal: `0` not followed by another digit or
a float/underscore continuation, or a nonzero digit run. -/
def litIntTok : List Char → Option (Nat × List Char)
  | [] => none
  | c :: l =>
    if c = '0' then
      match l with
      | [] => some (0, [])
      | c2 :: _ =>
        if isDigitCh c2 || c2 = '.' || c2 = 'e' || c2 = 'E' || c2 = '_' then none
        else some (0, l)
    else if isDigitCh c then
      let p := takeDigits l
      match p.2 with
      | [] => some (digitsVal (c :: p.1), [])
      | c2 :: _ =>
        if c2 = '.' || c2 = 'e' || c2 = 'E' || c2 = '_' then none
        else some (digitsVal (c :: p.1), p.2)
    else none

mutual

/-- Python literal value parser. -/
def litValue : Nat → List Char → Option (JValue × List Char)
  | 0, _ => none
  | fuel + 1, l =>
    match skipWs l with
    | [] => none
    | c :: rest =>
      if c = '{' then
        match skipWs rest with
        | [] => none
        | c2 :: r2 =>
          if c2 = '}' then some (.obj .nil, r2)
          else (litMembers1 fuel (c2 :: r2)).map (fun p => (.obj p.1, p.2))
      else if c = '[' then
        match skipWs rest with
        | [] => none
        | c2 :: r2 =>
          if c2 = ']' then some (.arr .nil, r2)
          else (litItems1 fuel (c2 :: r2)).map (fun p => (.arr p.1, p.2))
      else if c = qChar || c = apChar then
        (litStrBody c rest).map (fun p => (.str p.1, p.2))
      else if c = '-' then
        match litIntTok rest with
        | some p => some (.num (-(p.1 : Int)), p.2)
        | none => none
      else if isDigitCh c then
        match litIntTok (c :: rest) with
        | some p => some (.num (p.1 : Int), p.2)
        | none => none
      else if c = 'T' then
        match rest with
        | 'r' :: 'u' :: 'e' :: r => some (.bool true, r)
        | _ => none
      else if c = 'F' then
        match rest with
        | 'a' :: 'l' :: 's' :: 'e' :: r => some (.bool false, r)
        | _ => none
      else if c = 'N' then
        match rest with
        | 'o' :: 'n' :: 'e' :: r => some (.null, r)
        | _ => none
      else none

/-- One-or-more Python list items. -/
def litItems1 : Nat → List Char → Option (JList × List Char)
  | 0, _ => none
  | fuel + 1, l =>
    match litValue fuel l with
    | none => none
    | some (v, r) =>
      match skipWs r with
      | ',' :: r2 => (litItems1 fuel r2).map (fun p => (.cons v p.1, p.2))
      | ']' :: r2 => some (.cons v .nil, r2)
      | _ => none

/-- One-or-more Python dict members; keys must parse as strings (the
modelled fragment). -/
def litMembers1 : Nat → List Char → Option (JObj × List Char)
  | 0, _ => none
  | fuel + 1, l =>
    match litValue fuel l with
    | some (.str k, r) =>
      match skipWs r with
      | ':' :: r2 =>
        match litValue fuel r2 with
        | none => none
        | some (v, r3) =>
          match skipWs r3 with
          | ',' :: r4 => (litMembers1 fuel r4).map (fun p => (.cons k v p.1, p.2))
          | '}' :: r4 => some (.cons k v .nil, r4)
          | _ => none
      | _ => none
    | _ => none

end

/-- `ast.literal_eval` (model): parse one literal and require only
whitespace after it. -/
def litEval (l : List Char) : Option JValue :=
  match litValue (l.length + 1) l with
  | some (v, r) => if skipWs r = [] then some v else none
  | none => none

/-! ### `_extract_json_from_text` (services.py lines 53-85) -/

/-- `candidate.replace(chr(39), chr(34))`: the last-resort single-quote to
double-quote substitution of `_extract_json_from_text`. -/
def swapQuotes (l : List Char) : List Char :=
  l.map (fun c => if c = apChar then qChar else c)

/-- The wrapping the spec round-trip property applies to the serialised
input: every double quote replaced by a single quote. -/
def substQuotes (l : List Char) : List Char :=
  l.map (fun c => if c = qChar then apChar else c)

/-- Longest prefix of `l` ending at the last occurrence of `ch`
(empty if `ch` does not occur). -/
def upToLast (ch : Char) (l : List Char) : List Char :=
  (dropLeading (fun c => !(c = ch)) l.reverse).reverse

/-- The first match of `re.search(r"(\x7b.*\x7d|\[.*\])", text, re.S)`:
scan for the first `\x7b` with a later `\x7d` or the first `[` with a
later `]`; the greedy `.*` extends to the last closer in the text. -/
def grabSpan : List Char → Option (List Char)
  | [] => none
  | c :: rest =>
    if c = '{' && rest.contains '}' then some ('{' :: upToLast '}' rest)
    else if c = '[' && rest.contains ']' then some ('[' :: upToLast ']' rest)
    else grabSpan rest

/-- `text.rstrip(backtick + newline)`. -/
def rstripTicksNl (l : List Char) : List Char :=
  (dropLeading (fun c => c = btChar || c = nlChar) l.reverse).reverse

/-- `re.sub(r"\A(3 backticks)[a-zA-Z]*\n", "", text)`: remove one leading
code-fence marker line, when present. -/
def stripFence (l : List Char) : List Char :=
  match l with
  | c1 :: c2 :: c3 :: rest =>
    if c1 = btChar && c2 = btChar && c3 = btChar then
      match dropLeading isAsciiAlpha rest with
      | c4 :: r4 => if c4 = nlChar then r4 else l
      | [] => l
    else l
  | _ => l

/-- The error message raised when all parse strategies fail: a fixed
prefix, the (modelled) decoder error text, and at most 200 characters of
the offending candidate. -/
def parseFailMsg (candidate : List Char) : List Char :=
  ("Failed to parse model JSON response: Expecting value".data) ++
    nlChar :: ("Raw: ".data) ++ candidate.take 200

/-- The candidate text the parse strategies run on: fence-stripped,
right-stripped, regex span when found, else the whole stripped text. -/
def candidateOf (text : List Char) : List Char :=
  let t2 := rstripTicksNl (stripFence text)
  (grabSpan t2).getD (pyStrip t2)

/-- `_extract_json_from_text` (services.py 53-85): raise on empty input;
strip a leading code fence and trailing backticks/newlines; regex-locate
a brace or bracket span (else take the stripped text); then try strict
JSON, Python literal evaluation, and single-quote-to-double-quote
substitution followed by strict JSON, in that order; raise with a
truncated preview when all fail. -/
def extract_json_from_text (text : List Char) : Except (List Char) JValue :=
  if text = [] then .error ("Empty text".data)
  else
    match jsonLoads (candidateOf text) with
    | some v => .ok v
    | none =>
      match litEval (candidateOf text) with
      | some v => .ok v
      | none =>
        match jsonLoads (swapQuotes (candidateOf text)) with
        | some v => .ok v
        | none => .error (parseFailMsg (candidateOf text))

/-! ### Python `str()` / `repr()` (model, for `_coerce_response_to_str`) -/

/-- One character of a Python string `repr` with delimiter `d`. -/
def reprEscChar (d : Char) (c : Char) : List Char :=
  if c = bsChar then [bsChar, bsChar]
  else if c = d then [bsChar, d]
  else if c.toNat = 10 then [bsChar, 'n']
  else if c.toNat = 13 then [bsChar, 'r']
  else if c.toNat = 9 then [bsChar, 't']
  else if c.toNat < 32 || c.toNat = 127 then
    [bsChar, 'x', hexDigitCh (c.toNat / 16), hexDigitCh (c.toNat % 16)]
  else [c]

/-- Body of a Python string `repr`. -/
def reprStrBody (d : Char) : List Char → List Char
  | [] => []
  | c :: l => reprEscChar d c ++ reprStrBody d l

/-- Python `repr` of a string: single-quoted, unless the string contains a
single quote and no double quote. -/
def reprStr (s : List Char) : List Char :=
  let d := if s.contains apChar && !(s.contains qChar) then qChar else apChar
  d :: reprStrBody d s ++ [d]

mutual

/-- Python `str()` on the modelled values (`str` of a container is its
`repr`). -/
def pyStr : JValue → List Char
  | .str s => s
  | .num n => intChars n
  | .bool true => ['T', 'r', 'u', 'e']
  | .bool false => ['F', 'a', 'l', 's', 'e']
  | .null => ['N', 'o', 'n', 'e']
  | .arr items => pyReprV (.arr items)
  | .obj members => pyReprV (.obj members)

/-- Python `repr()` on the modelled values. -/
def pyReprV : JValue → List Char
  | .str s => reprStr s
  | .num n => intChars n
  | .bool true => ['T', 'r', 'u', 'e']
  | .bool false => ['F', 'a', 'l', 's', 'e']
  | .null => ['N', 'o', 'n', 'e']
  | .arr .nil => ['[', ']']
  | .arr items => '[' :: pyReprItems items ++ [']']
  | .obj .nil => ['{', '}']
  | .obj members => '{' :: pyReprMembers members ++ ['}']

/-- `repr` of the items of a non-empty list. -/
def pyReprItems : JList → List Char
  | .nil => []
  | .cons v .nil => pyReprV v
  | .cons v tl => pyReprV v ++ ',' :: ' ' :: pyReprItems tl

/-- `repr` of the members of a non-empty dict. -/
def pyReprMembers : JObj → List Char
  | .nil => []
  | .cons k v .nil => reprStr k ++ ':' :: ' ' :: pyReprV v
  | .cons k v tl => reprStr k ++ ':' :: ' ' :: pyReprV v ++ ',' :: ' ' :: pyReprMembers tl

end

/-! ### `_coerce_response_to_str` (services.py lines 23-50) -/

/-- `"\n".join(parts)`. -/
def joinNl : List (List Char) → List Char
  | [] => []
  | [p] => p
  | p :: ps => p ++ nlChar :: joinNl ps

/-- The per-element rule of the list branch: strings pass through, dicts
are `json.dumps`-ed, anything else goes through `str(el)`. -/
def coerceElem : JValue → List Char
  | .str s => s
  | .obj members => dumpsV (.obj members)
  | el => pyStr el

/-- List-branch parts accumulator. -/
def coerceParts : JList → List (List Char)
  | .nil => []
  | .cons el tl => coerceElem el :: coerceParts tl

/-- `_coerce_response_to_str` (services.py 23-50): strings are returned
unchanged; lists are joined with newlines element-wise; dicts are
`json.dumps`-ed; other scalars (which have no `content` attribute) fall
through to `str(resp)`. -/
def coerce_response_to_str : JValue → List Char
  | .str s => s
  | .arr items => joinNl (coerceParts items)
  | .obj members => dumpsV (.obj members)
  | v => pyStr v

/-! ### `truncate_text` (utils.py lines 72-79) -/

/-- `pre.rsplit(" ", 1)[0]`: everything before the last space, or the
whole string when it has no space. -/
def rsplitHead (l : List Char) : List Char :=
  if l.contains ' ' then ((dropLeading (fun c => !(c = ' ')) l.reverse).drop 1).reverse
  else l

/-- `truncate_text` (utils.py 72-79): return short text unchanged;
otherwise cut the first `max_length` characters back to the last space
(when there is one) and append an ellipsis exactly when that cut changed
the prefix. -/
def truncate_text (text : List Char) (max_length : Nat) : List Char :=
  if text.length ≤ max_length then text
  else
    let truncated := rsplitHead (text.take max_length)
    if truncated ≠ text.take max_length then truncated ++ ['.', '.', '.'] else truncated

/-! ### Post variants (services.py 449-532 and 687-709) -/

/-- A Post Variant record as built by the pipeline.  Field values other
than the id and the image path come straight from the parsed model
response, so they stay `JValue`s. -/
structure Variant where
  vid : List Char
  text : JValue
  hashtags : JValue
  suggested_comment : JValue
  alt_text : JValue
  image_path : List Char

/-- The API URL `/api/v1/images/(job_id)/(variant_id).png` stored in
`image_path`. -/
def apiImagePath (jobId vid : List Char) : List Char :=
  "/api/v1/images/".data ++ jobId ++ '/' :: vid ++ ".png".data

/-- `create_fallback_variants` (services.py 687-709). -/
def create_fallback_variants (summary opinion _tone jobId : List Char) : List Variant :=
  [ { vid := ['A'],
      text := .str ("Interesting article about ".data ++ summary.take 100 ++
        "... ".data ++ opinion ++ " #AI #Tech #Innovation".data),
      hashtags := .arr (.cons (.str "#AI".data)
        (.cons (.str "#Tech".data) (.cons (.str "#Innovation".data) .nil))),
      suggested_comment := .str "What are your thoughts on this?".data,
      alt_text := .str "AI technology illustration".data,
      image_path := apiImagePath jobId ['A'] },
    { vid := ['B'],
      text := .str ("Another perspective: ".data ++ summary.take 100 ++
        "... ".data ++ opinion ++ " #Future #Digital #Trends".data),
      hashtags := .arr (.cons (.str "#Future".data)
        (.cons (.str "#Digital".data) (.cons (.str "#Trends".data) .nil))),
      suggested_comment := .str "How does this impact your industry?".data,
      alt_text := .str "Digital transformation concept".data,
      image_path := apiImagePath jobId ['B'] } ]

/-- One variant record assembled from a parsed per-variant dict, with the
`.get(key, default)` defaults of the source. -/
def variantFromData (jobId vid : List Char) (d : JObj) : Variant :=
  { vid := vid,
    text := (d.lookup "text".data).getD (.str []),
    hashtags := (d.lookup "hashtags".data).getD (.arr .nil),
    suggested_comment := (d.lookup "suggested_comment".data).getD (.str []),
    alt_text := (d.lookup "alt_text".data).getD (.str []),
    image_path := apiImagePath jobId vid }

/-- One iteration of the `for variant_id in ["A", "B"]` collection loop:
a variant is appended only when its key is present and maps to a dict. -/
def variantSide (parsed : JObj) (jobId key : List Char) : List Variant :=
  match parsed.lookup key with
  | some (.obj d) => [variantFromData jobId key d]
  | _ => []

/-- The full collection loop over `["A", "B"]`. -/
def collectVariants (parsed : JObj) (jobId : List Char) : List Variant :=
  variantSide parsed jobId ['A'] ++ variantSide parsed jobId ['B']

/-- `generate_post_variants_with_langchain` (services.py 449-532).  The
Text Generation port response is the `rawResponse` oracle; prompt
construction only feeds that port, so it does not appear.  Every failure
path (empty coerced text, parse error, non-dict parse, missing or
non-dict `A`/`B` keys) lands on the deterministic fallback variants. -/
def generate_post_variants_with_langchain (summary : List Char)
    (_bullets : List (List Char)) (opinion tone jobId : List Char)
    (rawResponse : JValue) : List Variant :=
  let response_text := pyStrip (coerce_response_to_str rawResponse)
  if response_text = [] then create_fallback_variants summary opinion tone jobId
  else
    match extract_json_from_text response_text with
    | .error _ => create_fallback_variants summary opinion tone jobId
    | .ok (.obj parsed) =>
      let variants := collectVariants parsed jobId
      if variants.length = 2 then variants
      else create_fallback_variants summary opinion tone jobId
    | .ok _ => create_fallback_variants summary opinion tone jobId

/-! ### Job status state machine (models.py, api.py, services.py)

`cancel_post` (api.py 28-47) and `regenerate_post` (api.py 180-227) guard
on the current status; `run_job` (services.py 181-343) does not read the
status at all before writing.  Each operation is modelled by the list of
status values it commits, in order. -/

inductive Status where
  | queued
  | in_progress
  | completed
  | failed
  | cancelled
deriving DecidableEq, Repr

/-- How `run_job` ends: every pipeline stage succeeded, the integrity
sweep still found missing images, or a stage raised. -/
inductive RunOutcome where
  | success
  | imagesStillMissing
  | pipelineError
deriving DecidableEq, Repr

/-- Status writes of `cancel_post`: only a `queued`/`in_progress` job is
set to `cancelled`; otherwise HTTP 400, no write. -/
def cancelWrites (s : Status) : List Status :=
  if s = .queued || s = .in_progress then [.cancelled] else []

/-- Status writes of `run_job`: `in_progress` is written without reading
the current status, then `completed` or `failed`. -/
def runJobStatusWrites (_s : Status) (o : RunOutcome) : List Status :=
  [.in_progress,
   match o with
   | .success => .completed
   | .imagesStillMissing => .failed
   | .pipelineError => .failed]

/-- Status writes of `regenerate_post`: requires `completed`, writes
`in_progress`, and its background task writes `completed` back. -/
def regeneratePostWrites (s : Status) : List Status :=
  if s = .completed then [.in_progress, .completed] else []

/-- The transition table of spec section 4.5. -/
def allowedTransition : Status → Status → Bool
  | .queued, .in_progress => true
  | .queued, .cancelled => true
  | .in_progress, .completed => true
  | .in_progress, .failed => true
  | .in_progress, .cancelled => true
  | .completed, .in_progress => true
  | _, _ => false

/-- One invocation of a status-mutating operation. -/
inductive JobOp where
  | cancel
  | run (o : RunOutcome)
  | regen
deriving DecidableEq, Repr

/-- Status writes of one operation, from a given current status. -/
def opWrites : JobOp → Status → List Status
  | .cancel, s => cancelWrites s
  | .run o, s => runJobStatusWrites s o
  | .regen, s => regeneratePostWrites s

/-- Status after a list of writes. -/
def applyWrites (s : Status) (ws : List Status) : Status :=
  ws.getLast?.getD s

/-- All statuses written by a sequence of operations, in commit order. -/
def traceFrom (s : Status) : List JobOp → List Status
  | [] => []
  | op :: ops =>
    let ws := opWrites op s
    ws ++ traceFrom (applyWrites s ws) ops

/-- The full observed status sequence: initial status, then every write. -/
def fullTrace (s : Status) (ops : List JobOp) : List Status :=
  s :: traceFrom s ops

/-- Every consecutive status change lies in the transition table. -/
def chainOk : Status → List Status → Bool
  | _, [] => true
  | s, t :: ts => allowedTransition s t && chainOk t ts

/-- A trace respects the state machine. -/
def traceAllowed (s : Status) (ops : List JobOp) : Bool :=
  chainOk s (traceFrom s ops)

/-! ### `create_job` (services.py 89-179) -/

/-- One iteration of the reachability loop: the status obtained by HEAD
(falling back to GET once when HEAD raises), and the status of the extra
GET tried when the first status is an error; `none` models a raised
transport error. -/
structure AttemptRes where
  firstResp : Option Nat
  secondResp : Option Nat

/-- An attempt breaks out of the retry loop exactly when some response
status is below 400. -/
def attemptSucceeds (a : AttemptRes) : Bool :=
  match a.firstResp with
  | some s =>
    if s < 400 then true
    else
      match a.secondResp with
      | some s2 => decide (s2 < 400)
      | none => false
  | none => false

/-- Observable job-admission state: which job artifact directories exist
and which Job Records are persisted. -/
structure SysState where
  jobDirs : List (List Char)
  jobs : List (List Char × Status)
deriving Repr

/-- The `ValueError` message of a failed reachability check. -/
def reachFailMsg (url : List Char) : List Char :=
  "URL reachability check failed for ".data ++ url

/-- `create_job` (services.py 89-179): syntactic validation
(`is_valid_url`, here the `urlValid` oracle), then the 3-attempt
reachability loop; only admitted jobs create the artifact directory and
persist a `queued` Job Record. -/
def create_job (url _opinion _tone : List Char) (urlValid : Bool)
    (a1 a2 a3 : AttemptRes) (newId : List Char) (st : SysState) :
    SysState × Except (List Char) (List Char) :=
  if !urlValid then (st, .error ("Invalid URL provided".data))
  else if attemptSucceeds a1 || attemptSucceeds a2 || attemptSucceeds a3 then
    ({ jobDirs := st.jobDirs ++ [newId], jobs := st.jobs ++ [(newId, .queued)] },
      .ok newId)
  else (st, .error (reachFailMsg url))

/-! ### `run_job` pipeline state (services.py 181-343) -/

/-- Output of the Content Fetcher used by the Result Document. -/
structure ScrapeData where
  title : List Char
  main_text : List Char

/-- The Result Document fields the claims refer to (provider identifiers
and the moderation verdict are carried along unchanged and are omitted). -/
structure ResultDoc where
  source_url : List Char
  title : List Char
  excerpt : List Char
  post_variants : List Variant

/-- The Job Record fields used by the pipeline. -/
structure JobRec where
  url : List Char
  opinion : List Char
  tone : List Char
  status : Status
  error : Option (List Char)

/-- Per-job artifact state: directory existence, the summary artifact,
the Result Document, and the set of variant ids whose image file exists. -/
structure JobFS where
  dirExists : Bool
  summary : List Char
  resultDoc : Option ResultDoc
  images : List (List Char)

/-- Oracles for one `run_job` execution: the scrape result (`none`
models a raised fetch error), the Summarize stage output string, the raw
Draft Variants port response, the image files present after the image
stage, and per-variant success of the one retry generation. -/
structure RunOracle where
  scrape : Option ScrapeData
  summaryText : List Char
  variantsRaw : JValue
  imagesAfterGen : List (List Char)
  retryImageOk : List Char → Bool

/-- The descriptive error recorded when images are missing after the
retry (services.py 313). -/
def sweepErrMsg (jobId : List Char) : List Char :=
  "Images missing after retry for job=".data ++ jobId

/-- The post-image integrity sweep of `run_job` (services.py 249-321):
compute the variants with a missing image file, regenerate each missing
image exactly once, re-check, and report the still-missing error if any.
Returns (attempted variant ids, image files afterwards, failure). -/
def integritySweep (jobId : List Char) (variants : List Variant)
    (images : List (List Char)) (retryOk : List Char → Bool) :
    List (List Char) × List (List Char) × Option (List Char) :=
  let missing := (variants.filter (fun v => !(images.contains v.vid))).map (fun v => v.vid)
  if missing.isEmpty then ([], images, none)
  else
    let images2 := images ++ missing.filter retryOk
    let still := (variants.filter (fun v => !(images2.contains v.vid))).map (fun v => v.vid)
    (missing, images2, if still.isEmpty then none else some (sweepErrMsg jobId))

/-- The error recorded when the scrape stage raises (services.py 335-343,
via the `scrape_url` message of services.py 405). -/
def scrapeFailMsg : List Char := "Failed to scrape URL".data

/-- `run_job` (services.py 181-343): writes `in_progress` without reading
the current status, runs the stages in order, persists the Result
Document, runs the integrity sweep, and ends `completed` or `failed`.
Also returns the variant ids the sweep attempted to regenerate. -/
def run_job (jobId : List Char) (rec : JobRec) (fs : JobFS) (o : RunOracle) :
    JobRec × JobFS × List (List Char) :=
  let rec1 : JobRec := { rec with status := .in_progress }
  match o.scrape with
  | none => ({ rec1 with status := .failed, error := some scrapeFailMsg }, fs, [])
  | some sd =>
    let variants := generate_post_variants_with_langchain o.summaryText []
      rec.opinion rec.tone jobId o.variantsRaw
    let doc : ResultDoc :=
      { source_url := rec.url, title := sd.title,
        excerpt := truncate_text sd.main_text 200,
        post_variants := variants }
    let sw := integritySweep jobId variants o.imagesAfterGen o.retryImageOk
    let doc2 : ResultDoc :=
      { doc with post_variants := variants.map (fun v =>
          if sw.1.contains v.vid && o.retryImageOk v.vid then
            { v with image_path := apiImagePath jobId v.vid }
          else v) }
    let fs2 : JobFS :=
      { fs with summary := o.summaryText, resultDoc := some doc2, images := sw.2.1 }
    match sw.2.2 with
    | some e => ({ rec1 with status := .failed, error := some e }, fs2, sw.1)
    | none => ({ rec1 with status := .completed }, fs2, sw.1)

/-! ### `regenerate_content` (services.py 714-809) -/

/-- Replace the first variant whose id matches (the source loop breaks at
the first match). -/
def updateFirst (vs : List Variant) (vid : List Char) (f : Variant → Variant) :
    List Variant :=
  match vs with
  | [] => []
  | v :: tl => if v.vid = vid then f v :: tl else v :: updateFirst tl vid f

/-- Writing an image file makes it exist. -/
def insertImg (vid : List Char) (images : List (List Char)) : List (List Char) :=
  if images.contains vid then images else images ++ [vid]

/-- `regenerate_content` (services.py 714-809): look up the job files,
Result Document and target variant (each absence returns `False` with no
write); for a text scope re-run Draft Variants and overwrite the target
variant; for an image scope regenerate the image (a raised generation
error returns `False` before any write), save it, and rewrite the image
path; finally persist the updated Result Document and return `True`. -/
def regenerate_content (jobId rtype variantId : List Char) (fs : JobFS)
    (jobOpinion jobTone : List Char) (textRaw : JValue)
    (imageGenOk : Bool) (saveImageOk : Bool) : JobFS × Bool :=
  if !fs.dirExists then (fs, false)
  else
    match fs.resultDoc with
    | none => (fs, false)
    | some doc =>
      if (doc.post_variants.find? (fun v => v.vid = variantId)).isNone then (fs, false)
      else
        let doc1 :=
          if rtype = "text".data || rtype = "both".data then
            let newVs := generate_post_variants_with_langchain fs.summary []
              jobOpinion jobTone jobId textRaw
            match newVs.find? (fun v => v.vid = variantId) with
            | some nv => { doc with post_variants := updateFirst doc.post_variants variantId (fun _ => nv) }
            | none => doc
          else doc
        if rtype = "image".data || rtype = "both".data then
          if !imageGenOk then (fs, false)
          else
            let fs1 := { fs with images := if saveImageOk then insertImg variantId fs.images else fs.images }
            let setPath : Variant → Variant := fun v => { v with image_path := apiImagePath jobId variantId }
            let doc2 := { doc1 with post_variants := updateFirst doc1.post_variants variantId setPath }
            ({ fs1 with resultDoc := some doc2 }, true)
        else ({ fs with resultDoc := some doc1 }, true)

/-! ### Structural predicates on `JValue` (for the round-trip analysis) -/

mutual

/-- The serialisation of the value contains a double quote (it has a
string subterm or a non-empty object subterm). -/
def hasQuoteV : JValue → Bool
  | .null => false
  | .bool _ => false
  | .num _ => false
  | .str _ => true
  | .arr items => hasQuoteL items
  | .obj .nil => false
  | .obj (.cons _ _ _) => true

/-- `hasQuoteV` over a list. -/
def hasQuoteL : JList → Bool
  | .nil => false
  | .cons v tl => hasQuoteV v || hasQuoteL tl

end

mutual

/-- The value contains a boolean or null atom (whose JSON spellings
`true`/`false`/`null` are not Python literals). -/
def hasNBV : JValue → Bool
  | .null => true
  | .bool _ => true
  | .num _ => false
  | .str _ => false
  | .arr items => hasNBL items
  | .obj m => hasNBO m

/-- `hasNBV` over a list. -/
def hasNBL : JList → Bool
  | .nil => false
  | .cons v tl => hasNBV v || hasNBL tl

/-- `hasNBV` over object members. -/
def hasNBO : JObj → Bool
  | .nil => false
  | .cons _ v tl => hasNBV v || hasNBO tl

end

mutual

/-- No string content or key of the value contains a quote character
(single or double). -/
def strOkV : JValue → Bool
  | .null => true
  | .bool _ => true
  | .num _ => true
  | .str s => !(s.contains qChar || s.contains apChar)
  | .arr items => strOkL items
  | .obj m => strOkO m

/-- `strOkV` over a list. -/
def strOkL : JList → Bool
  | .nil => true
  | .cons v tl => strOkV v && strOkL tl

/-- `strOkV` over object members. -/
def strOkO : JObj → Bool
  | .nil => true
  | .cons k v tl => !(k.contains qChar || k.contains apChar) && strOkV v && strOkO tl

end

/-- Structured (object or array) at the top, as the round-trip claim
requires. -/
def isStructured : JValue → Bool
  | .arr _ => true
  | .obj _ => true
  | _ => false

/-- Wrap a serialisation in a fenced code block with language tag
`lang`. -/
def fenceWrap (lang s : List Char) : List Char :=
  [btChar, btChar, btChar] ++ lang ++ nlChar :: s ++ nlChar :: [btChar, btChar, btChar]

/-! ### Concrete fixtures for witnesses and counterexamples -/

/-- The empty Result Document (used only as an `Option.getD` default). -/
def emptyDoc : ResultDoc :=
  { source_url := [], title := [], excerpt := [], post_variants := [] }

/-- Number of hashtags a variant record carries. -/
def hashtagLen (v : Variant) : Nat :=
  match v.hashtags with
  | .arr l => l.length
  | _ => 0

/-- A parsed per-variant dict carrying a single hashtag. -/
def oneTagData (txt : List Char) : JObj :=
  .cons "text".data (.str txt)
    (.cons "hashtags".data (.arr (.cons (.str "#one".data) .nil)) .nil)

/-- A well-formed Draft Variants port response whose variants carry one
hashtag each. -/
def oneTagParsed : JValue :=
  .obj (.cons ['A'] (.obj (oneTagData "ta".data))
    (.cons ['B'] (.obj (oneTagData "tb".data)) .nil))

/-- A queued Job Record fixture. -/
def recW : JobRec :=
  { url := "http://e.com/a".data, opinion := "op".data, tone := "pro".data,
    status := .queued, error := none }

/-- An initial per-job filesystem fixture. -/
def fsW : JobFS :=
  { dirExists := true, summary := [], resultDoc := none, images := [] }

/-- Oracle fixture: reachable scrape, a parseable variants response with
one hashtag per variant, both images generated. -/
def oneTagOracle : RunOracle :=
  { scrape := some { title := "T".data, main_text := "body text".data },
    summaryText := "sum".data,
    variantsRaw := .str (dumpsV oneTagParsed),
    imagesAfterGen := [['A'], ['B']],
    retryImageOk := fun _ => true }

/-- Oracle fixture: variant A's image initially missing, the retry
succeeds. -/
def missingAOracle : RunOracle :=
  { scrape := some { title := "T".data, main_text := "body text".data },
    summaryText := "sum".data,
    variantsRaw := .str "no structured data here".data,
    imagesAfterGen := [['B']],
    retryImageOk := fun _ => true }

/-- A variant fixture with id `A`. -/
def vAW : Variant :=
  { vid := ['A'], text := .str "ta".data, hashtags := .arr .nil,
    suggested_comment := .str [], alt_text := .str [],
    image_path := apiImagePath ['j'] ['A'] }

/-- A variant fixture with id `B`. -/
def vBW : Variant :=
  { vid := ['B'], text := .str "tb".data, hashtags := .arr .nil,
    suggested_comment := .str [], alt_text := .str [],
    image_path := apiImagePath ['j'] ['B'] }

/-- A completed-job Result Document fixture. -/
def docW : ResultDoc :=
  { source_url := [], title := [], excerpt := [], post_variants := [vAW, vBW] }

/-- A completed-job filesystem fixture. -/
def fs6W : JobFS :=
  { dirExists := true, summary := [], resultDoc := some docW, images := [['A'], ['B']] }

/-- Round-trip counterexample value: an object whose string contains an
apostrophe. -/
def apostValue : JValue :=
  .obj (.cons ['a'] (.str ("it".data ++ apChar :: ['s'])) .nil)

/-- Contexts a serialised value may be followed by: nothing, or a
character that cannot extend a number token (so parsing stops exactly at
the value boundary).  Inside serialised containers the following
character is always a comma, brace or bracket. -/
def restStop : List Char → Bool
  | [] => true
  | c :: _ => !(isDigitCh c || c = '.' || c = 'e' || c = 'E' || c = '_')

/-! ## Lemmas and claim theorems -/

theorem dropLeading_eq_drop (p : Char → Bool) (l : List Char) :
    ∃ n, dropLeading p l = l.drop n := by
  induction l with
  | nil => exact ⟨0, rfl⟩
  | cons c tl ih =>
    by_cases h : p c = true
    · obtain ⟨n, hn⟩ := ih
      refine ⟨n + 1, ?_⟩
      simp only [dropLeading, h, if_true, List.drop_succ_cons]
      exact hn
    · refine ⟨0, ?_⟩
      simp [dropLeading, h]

theorem dropLeading_ne_nil (p : Char → Bool) (l : List Char) (c : Char)
    (hc : c ∈ l) (hpc : p c = false) : dropLeading p l ≠ [] := by
  induction l with
  | nil => cases hc
  | cons d tl ih =>
    by_cases h : p d = true
    · have hmem : c ∈ tl := by
        rcases List.mem_cons.mp hc with h1 | h1
        · subst h1; rw [hpc] at h; cases h
        · exact h1
      simp only [dropLeading, h, if_true]
      exact ih hmem
    · simp only [dropLeading, h, if_false]
      exact List.cons_ne_nil d tl

theorem contains_iff_memChar (l : List Char) (c : Char) :
    l.contains c = true ↔ c ∈ l := by
  simp [List.contains_eq_any_beq, List.any_eq_true]

/-- When the string has a space, `rsplit(" ", 1)[0]` is a proper prefix. -/
theorem rsplitHead_spec (l : List Char) (h : l.contains ' ' = true) :
    ∃ k, k < l.length ∧ rsplitHead l = l.take k := by
  obtain ⟨n, hn⟩ := dropLeading_eq_drop (fun c => !(c = ' ')) l.reverse
  have hmem : (' ' : Char) ∈ l.reverse := by
    rw [List.mem_reverse]; exact (contains_iff_memChar l ' ').mp h
  have hne : dropLeading (fun c => !(c = ' ')) l.reverse ≠ [] :=
    dropLeading_ne_nil _ _ ' ' hmem (by simp)
  have hr : rsplitHead l = (l.reverse.drop (n + 1)).reverse := by
    simp only [rsplitHead, h, if_true]
    rw [hn, List.drop_drop]
  have hlt : n < l.length := by
    by_contra hge
    have hnil : l.reverse.drop n = [] :=
      List.drop_eq_nil_of_le (by simpa using Nat.le_of_not_lt hge)
    rw [hn] at hne; exact hne hnil
  refine ⟨l.length - (n + 1), by omega, ?_⟩
  rw [hr, List.reverse_drop, List.reverse_reverse, List.length_reverse]

/-- C10: `truncate_text(text, max_length)` returns `text` unchanged when
`len(text) <= max_length`; otherwise it returns a string of length at
most `max_length + 3`, obtained by cutting `text` at or before
`max_length` characters — at the last space when the prefix contains one
— and appends `"..."` exactly when that cut shortened the prefix. -/
theorem truncate_text_spec (text : List Char) (max_length : Nat) :
    (text.length ≤ max_length → truncate_text text max_length = text) ∧
    (max_length < text.length →
      (truncate_text text max_length).length ≤ max_length + 3 ∧
      (∃ k, k ≤ max_length ∧ rsplitHead (text.take max_length) = text.take k) ∧
      ((text.take max_length).contains ' ' = true →
        truncate_text text max_length =
          rsplitHead (text.take max_length) ++ ['.', '.', '.']) ∧
      ((text.take max_length).contains ' ' = false →
        truncate_text text max_length = text.take max_length)) := by
  constructor
  · intro h; simp [truncate_text, h]
  · intro h
    have hnle : ¬ text.length ≤ max_length := by omega
    have hplen : (text.take max_length).length = max_length := by
      rw [List.length_take]; omega
    by_cases hc : (text.take max_length).contains ' ' = true
    · obtain ⟨k, hklt, hkeq⟩ := rsplitHead_spec (text.take max_length) hc
      have hklen : (rsplitHead (text.take max_length)).length = k := by
        rw [hkeq, List.length_take, hplen]
        omega
      have hne : rsplitHead (text.take max_length) ≠ text.take max_length := by
        intro he
        rw [he, hplen] at hklen
        omega
      have heq : truncate_text text max_length =
          rsplitHead (text.take max_length) ++ ['.', '.', '.'] := by
        simp [truncate_text, hnle, hne]
      refine ⟨?_, ⟨k, by omega, ?_⟩, fun _ => heq, ?_⟩
      · rw [heq]
        simp only [List.length_append, List.length_cons, List.length_nil]
        omega
      · rw [hkeq, List.take_take]
        congr 1
        omega
      · intro hfalse; rw [hfalse] at hc; cases hc
    · have hc' : (text.take max_length).contains ' ' = false := by
        cases hcc : (text.take max_length).contains ' '
        · rfl
        · exact absurd hcc hc
      have hr : rsplitHead (text.take max_length) = text.take max_length := by
        unfold rsplitHead
        rw [hc']
        simp
      have heq : truncate_text text max_length = text.take max_length := by
        simp [truncate_text, hnle, hr]
      refine ⟨?_, ⟨max_length, le_refl _, by rw [hr]⟩, fun htrue => absurd htrue hc, fun _ => heq⟩
      rw [heq, hplen]
      omega

/-- C10 witness: concrete runs of `truncate_text` through the claim
theorem. -/
theorem truncate_text_spec_witness :
    truncate_text "hi".data 5 = "hi".data ∧
    truncate_text "hello world plus".data 11 =
      rsplitHead ("hello world plus".data.take 11) ++ ['.', '.', '.'] :=
  ⟨(truncate_text_spec "hi".data 5).1 (by decide),
   (((truncate_text_spec "hello world plus".data 11).2 (by decide)).2.2.1 (by decide))⟩

/-- C9: `_coerce_response_to_str` is total and string-valued on strings,
dicts and (possibly nested, mixed) lists — strings are returned
unchanged (identity), dicts are serialised, and a mixed list joins its
elements with newlines, stringifying non-string scalars and nested
containers. -/
theorem coerce_response_spec :
    (∀ s : List Char, coerce_response_to_str (.str s) = s) ∧
    (∀ m : JObj, coerce_response_to_str (.obj m) = dumpsV (.obj m)) ∧
    coerce_response_to_str (.arr (.cons (.str ['x'])
      (.cons (.num 3) (.cons .null (.cons (.arr (.cons (.num 1) .nil))
        (.cons (.obj (.cons ['a'] (.num 1) .nil)) .nil)))))) =
      'x' :: nlChar :: '3' :: nlChar :: 'N' :: 'o' :: 'n' :: 'e' :: nlChar ::
        '[' :: '1' :: ']' :: nlChar :: '{' :: qChar :: 'a' :: qChar :: ':' :: ' ' :: '1' :: ['}'] :=
  ⟨fun _ => rfl, fun _ => rfl, by rfl⟩

/-- C1 counterexample: a job cancelled while still queued is nevertheless
driven by `run_job` (which never reads the status) to `in_progress` and
then `completed` — a transition out of the terminal `cancelled` state,
rejected by the spec's transition table. -/
theorem run_job_cancel_counterexample :
    fullTrace .queued [JobOp.cancel, JobOp.run .success] =
      [.queued, .cancelled, .in_progress, .completed] ∧
    traceAllowed .queued [JobOp.cancel, JobOp.run .success] = false :=
  ⟨rfl, rfl⟩

/-- C1 (amended): `cancel_post` writes `cancelled` only from
`queued`/`in_progress`, `regenerate_post` re-opens only `completed` jobs
and both stay inside the transition table, and `run_job` from `queued`
follows `queued → in_progress → completed/failed`; but `run_job`'s
status writes do not depend on the current status at all, so `cancelled`
is not terminal under it. -/
theorem job_status_machine_amended (s : Status) (o : RunOutcome) :
    chainOk s (cancelWrites s) = true ∧
    chainOk s (regeneratePostWrites s) = true ∧
    chainOk Status.queued (runJobStatusWrites Status.queued o) = true ∧
    runJobStatusWrites s o = runJobStatusWrites Status.queued o := by
  cases s <;> cases o <;> exact ⟨rfl, rfl, rfl, rfl⟩

/-- C5: `create_job` on a syntactically valid URL whose three
reachability attempts all fail raises the `ValueError` and leaves the
observable state — job directories and Job Records — unchanged. -/
theorem create_job_unreachable (url opinion tone newId : List Char)
    (a1 a2 a3 : AttemptRes) (st : SysState)
    (h1 : attemptSucceeds a1 = false) (h2 : attemptSucceeds a2 = false)
    (h3 : attemptSucceeds a3 = false) :
    create_job url opinion tone true a1 a2 a3 newId st =
      (st, .error (reachFailMsg url)) := by
  simp [create_job, h1, h2, h3]

/-- C5 witness: a concrete unreachable-URL run (HTTP 500 then transport
errors) through the claim theorem. -/
theorem create_job_unreachable_witness :
    create_job "http://e.com/a".data [] [] true
      ⟨some 500, some 500⟩ ⟨none, none⟩ ⟨some 404, none⟩ ['i'] ⟨[], []⟩ =
      (⟨[], []⟩, .error (reachFailMsg "http://e.com/a".data)) :=
  create_job_unreachable _ _ _ _ _ _ _ _ rfl rfl rfl

theorem variantSide_structure (parsed : JObj) (jobId key : List Char) :
    variantSide parsed jobId key = [] ∨
    ∃ d, variantSide parsed jobId key = [variantFromData jobId key d] := by
  unfold variantSide
  cases he : parsed.lookup key with
  | none => exact Or.inl rfl
  | some v =>
    cases v with
    | obj d => exact Or.inr ⟨d, rfl⟩
    | null => exact Or.inl rfl
    | bool b => exact Or.inl rfl
    | num n => exact Or.inl rfl
    | str s => exact Or.inl rfl
    | arr items => exact Or.inl rfl

theorem fallback_structure (summary opinion tone jobId : List Char) :
    ∃ a b, create_fallback_variants summary opinion tone jobId = [a, b] ∧
      a.vid = ['A'] ∧ b.vid = ['B'] ∧
      a.image_path = apiImagePath jobId ['A'] ∧ b.image_path = apiImagePath jobId ['B'] ∧
      hashtagLen a = 3 ∧ hashtagLen b = 3 :=
  ⟨_, _, rfl, rfl, rfl, rfl, rfl, rfl, rfl⟩

/-- Structure of the Draft Variants output: always exactly two records,
ids `A` then `B`, each referencing its API image URL. -/
theorem gpv_structure (summary : List Char) (bullets : List (List Char))
    (opinion tone jobId : List Char) (raw : JValue) :
    ∃ a b, generate_post_variants_with_langchain summary bullets opinion tone jobId raw = [a, b] ∧
      a.vid = ['A'] ∧ b.vid = ['B'] ∧
      a.image_path = apiImagePath jobId ['A'] ∧ b.image_path = apiImagePath jobId ['B'] := by
  obtain ⟨fa, fb, hf, hfa, hfb, hfpa, hfpb, _, _⟩ := fallback_structure summary opinion tone jobId
  unfold generate_post_variants_with_langchain
  by_cases hrt : pyStrip (coerce_response_to_str raw) = []
  · rw [if_pos hrt]
    exact ⟨fa, fb, hf, hfa, hfb, hfpa, hfpb⟩
  · rw [if_neg hrt]
    cases hE : extract_json_from_text (pyStrip (coerce_response_to_str raw)) with
    | error e => exact ⟨fa, fb, hf, hfa, hfb, hfpa, hfpb⟩
    | ok v =>
      cases v with
      | obj parsed =>
        show ∃ a b, (if (collectVariants parsed jobId).length = 2 then collectVariants parsed jobId
          else create_fallback_variants summary opinion tone jobId) = [a, b] ∧ _
        rcases variantSide_structure parsed jobId ['A'] with hA | ⟨dA, hA⟩ <;>
          rcases variantSide_structure parsed jobId ['B'] with hB | ⟨dB, hB⟩
        · rw [collectVariants, hA, hB]
          exact ⟨fa, fb, hf, hfa, hfb, hfpa, hfpb⟩
        · rw [collectVariants, hA, hB]
          exact ⟨fa, fb, hf, hfa, hfb, hfpa, hfpb⟩
        · rw [collectVariants, hA, hB]
          exact ⟨fa, fb, hf, hfa, hfb, hfpa, hfpb⟩
        · rw [collectVariants, hA, hB]
          exact ⟨variantFromData jobId ['A'] dA, variantFromData jobId ['B'] dB,
            rfl, rfl, rfl, rfl, rfl⟩
      | null => exact ⟨fa, fb, hf, hfa, hfb, hfpa, hfpb⟩
      | bool b => exact ⟨fa, fb, hf, hfa, hfb, hfpa, hfpb⟩
      | num n => exact ⟨fa, fb, hf, hfa, hfb, hfpa, hfpb⟩
      | str s => exact ⟨fa, fb, hf, hfa, hfb, hfpa, hfpb⟩
      | arr items => exact ⟨fa, fb, hf, hfa, hfb, hfpa, hfpb⟩

/-- C4: the Draft Variants stage never raises and, for every summary,
opinion, tone and Text Generation port response, returns exactly two
variant records with ids `A` and `B`; whenever the Response Normalizer
raises on the coerced response (empty text included), the result is the
deterministic fallback derived from the summary and the opinion. -/
theorem generate_post_variants_total (summary : List Char) (bullets : List (List Char))
    (opinion tone jobId : List Char) (raw : JValue) :
    (generate_post_variants_with_langchain summary bullets opinion tone jobId raw).length = 2 ∧
    (generate_post_variants_with_langchain summary bullets opinion tone jobId raw).map
      (fun v => v.vid) = [['A'], ['B']] ∧
    ((extract_json_from_text (pyStrip (coerce_response_to_str raw))).isOk = false →
      generate_post_variants_with_langchain summary bullets opinion tone jobId raw =
        create_fallback_variants summary opinion tone jobId) := by
  obtain ⟨a, b, heq, ha, hb, _, _⟩ := gpv_structure summary bullets opinion tone jobId raw
  refine ⟨by rw [heq]; rfl, by rw [heq]; simp [ha, hb], ?_⟩
  intro hfail
  unfold generate_post_variants_with_langchain
  by_cases hrt : pyStrip (coerce_response_to_str raw) = []
  · rw [if_pos hrt]
  · rw [if_neg hrt]
    cases hE : extract_json_from_text (pyStrip (coerce_response_to_str raw)) with
    | error e => rfl
    | ok v => rw [hE] at hfail; simp [Except.isOk, Except.toBool] at hfail

/-- C4 witness: a non-recoverable response makes the stage return the
deterministic fallback variants. -/
theorem generate_post_variants_total_witness :
    generate_post_variants_with_langchain [] [] [] [] ['j']
      (.str "no structured data here".data) =
      create_fallback_variants [] [] [] ['j'] :=
  (generate_post_variants_total [] [] [] [] ['j'] (.str "no structured data here".data)).2.2
    (by rfl)

theorem updateFirst_no_match (t : List Variant) (k : List Char) (f : Variant → Variant)
    (ht : ∀ v ∈ t, ¬ v.vid = k) : updateFirst t k f = t := by
  induction t with
  | nil => rfl
  | cons x tl ih =>
    have hx : ¬ x.vid = k := ht x (List.mem_cons_self x tl)
    simp only [updateFirst, hx, if_false]
    rw [ih (fun v hv => ht v (List.mem_cons_of_mem x hv))]

theorem updateFirst_drop_one (l : List Variant) (k : List Char) (f : Variant → Variant)
    (h : ∀ v ∈ l.drop 1, ¬ v.vid = k) : (updateFirst l k f).drop 1 = l.drop 1 := by
  cases l with
  | nil => rfl
  | cons x t =>
    simp only [List.drop_succ_cons, List.drop_zero] at h ⊢
    by_cases hx : x.vid = k
    · simp [updateFirst, hx]
    · simp only [updateFirst, hx, if_false, List.drop_succ_cons, List.drop_zero]
      exact updateFirst_no_match t k f h

theorem updateFirst_pair_left (x y : Variant) (k : List Char) (f : Variant → Variant)
    (hx : x.vid = k) : updateFirst [x, y] k f = [f x, y] := by
  simp [updateFirst, hx]

theorem updateFirst_pair_drop (x y : Variant) (k : List Char) (f : Variant → Variant)
    (hy : ¬ y.vid = k) : (updateFirst [x, y] k f).drop 1 = [y] := by
  by_cases hx : x.vid = k
  · simp [updateFirst, hx]
  · simp [updateFirst, hx, hy]

theorem regenerate_false_frame (jobId rtype varId : List Char) (fs : JobFS)
    (op tn : List Char) (raw : JValue) (ig sv : Bool)
    (h : (regenerate_content jobId rtype varId fs op tn raw ig sv).2 = false) :
    (regenerate_content jobId rtype varId fs op tn raw ig sv).1 = fs := by
  cases hdirb : fs.dirExists with
  | false => simp [regenerate_content, hdirb]
  | true =>
    unfold regenerate_content at h ⊢
    simp only [hdirb, Bool.not_true, Bool.false_eq_true, if_false] at h ⊢
    cases hdocb : fs.resultDoc with
    | none => simp [hdocb]
    | some doc =>
      simp only [hdocb] at h ⊢
      by_cases hf : (List.find? (fun v => decide (v.vid = varId)) doc.post_variants).isNone = true
      · simp only [hf, if_true]
      · simp only [hf, if_false] at h ⊢
        by_cases himg : (decide (rtype = "image".data) || decide (rtype = "both".data)) = true
        · simp only [himg, if_true] at h ⊢
          by_cases hig : ig = true
          · simp [hig] at h
          · have hig' : ig = false := by
              cases ig
              · rfl
              · exact absurd rfl hig
            simp [hig']
        · simp only [himg, if_false] at h
          simp at h

/-- C6: on a completed job with variants `A` and `B`,
`regenerate_content(jobId, "image", "A")` rewrites only variant A's
image reference, leaving variant B's record byte-for-byte unchanged;
for every scope targeting `A` the second (B) record is untouched; and
whenever regeneration returns failure the whole job filesystem — the
prior Result Document included — is left untouched. -/
theorem regenerate_content_frame (jobId : List Char) (fs : JobFS) (doc : ResultDoc)
    (vA vB : Variant) (op tn : List Char) (raw : JValue) (sOk : Bool)
    (hdir : fs.dirExists = true) (hdoc : fs.resultDoc = some doc)
    (hvars : doc.post_variants = [vA, vB]) (hA : vA.vid = ['A']) (hB : vB.vid = ['B']) :
    regenerate_content jobId "image".data ['A'] fs op tn raw true sOk =
      ({ fs with
          images := (if sOk then insertImg ['A'] fs.images else fs.images),
          resultDoc := some { doc with post_variants :=
            [{ vA with image_path := apiImagePath jobId ['A'] }, vB] } }, true) ∧
    (∀ rtype varId raw2 ig sv,
      (regenerate_content jobId rtype varId fs op tn raw2 ig sv).2 = false →
      (regenerate_content jobId rtype varId fs op tn raw2 ig sv).1 = fs) ∧
    (∀ rtype raw2 ig sv,
      ((regenerate_content jobId rtype ['A'] fs op tn raw2 ig sv).1.resultDoc.getD
        doc).post_variants.drop 1 = [vB]) := by
  have hBne : ¬ vB.vid = ['A'] := by rw [hB]; decide
  have hfindP : ¬ ((List.find? (fun v => decide (v.vid = ['A'])) doc.post_variants).isNone = true) := by
    rw [hvars]
    simp [List.find?, hA]
  have hdropDoc : doc.post_variants.drop 1 = [vB] := by rw [hvars]; rfl
  have hdropUF : ∀ f : Variant → Variant,
      (updateFirst doc.post_variants ['A'] f).drop 1 = [vB] := by
    intro f
    have hmem : ∀ v ∈ doc.post_variants.drop 1, ¬ v.vid = ['A'] := by
      rw [hdropDoc]
      intro v hv
      have hveq : v = vB := by simpa using hv
      rw [hveq]
      exact hBne
    rw [updateFirst_drop_one doc.post_variants ['A'] f hmem, hdropDoc]
  refine ⟨?_, fun rtype varId raw2 ig sv h => regenerate_false_frame _ _ _ _ _ _ _ _ _ h, ?_⟩
  · unfold regenerate_content
    simp only [hdir, hdoc, Bool.not_true, Bool.false_eq_true, if_false]
    rw [if_neg hfindP]
    simp +decide only [Bool.false_eq_true, Bool.true_eq_false, if_false, if_true,
      Bool.or_false, Bool.false_or, Bool.or_true, Bool.true_or, Bool.or_self,
      Bool.not_true, decide_True, decide_False]
    rw [hvars, updateFirst_pair_left vA vB ['A'] _ hA]
  · intro rtype raw2 ig sv
    unfold regenerate_content
    simp only [hdir, hdoc, Bool.not_true, Bool.false_eq_true, if_false]
    rw [if_neg hfindP]
    by_cases htext : (decide (rtype = "text".data) || decide (rtype = "both".data)) = true
    · rw [if_pos htext]
      cases hfn : List.find? (fun v => decide (v.vid = ['A']))
          (generate_post_variants_with_langchain fs.summary [] op tn jobId raw2) with
      | none =>
        by_cases himg : (decide (rtype = "image".data) || decide (rtype = "both".data)) = true
        · rw [if_pos himg]
          by_cases hig : (!ig) = true
          · rw [if_pos hig]
            simp only [hdoc, Option.getD_some]
            exact hdropDoc
          · rw [if_neg hig]
            simp only [Option.getD_some]
            exact hdropUF _
        · rw [if_neg himg]
          simp only [Option.getD_some]
          exact hdropDoc
      | some nv =>
        by_cases himg : (decide (rtype = "image".data) || decide (rtype = "both".data)) = true
        · rw [if_pos himg]
          by_cases hig : (!ig) = true
          · rw [if_pos hig]
            simp only [hdoc, Option.getD_some]
            exact hdropDoc
          · rw [if_neg hig]
            simp only [Option.getD_some]
            rw [hvars, updateFirst_pair_left vA vB ['A'] _ hA]
            exact updateFirst_pair_drop nv vB ['A'] _ hBne
        · rw [if_neg himg]
          simp only [Option.getD_some]
          rw [hvars, updateFirst_pair_left vA vB ['A'] _ hA]
          rfl
    · rw [if_neg htext]
      by_cases himg : (decide (rtype = "image".data) || decide (rtype = "both".data)) = true
      · rw [if_pos himg]
        by_cases hig : (!ig) = true
        · rw [if_pos hig]
          simp only [hdoc, Option.getD_some]
          exact hdropDoc
        · rw [if_neg hig]
          simp only [Option.getD_some]
          exact hdropUF _
      · rw [if_neg himg]
        simp only [Option.getD_some]
        exact hdropDoc

/-- C6 witness: a concrete image regeneration on a completed two-variant
job, through the claim theorem. -/
theorem regenerate_content_frame_witness :
    regenerate_content ['j'] "image".data ['A'] fs6W [] [] JValue.null true true =
      ({ fs6W with
          images := insertImg ['A'] fs6W.images,
          resultDoc := some { docW with post_variants :=
            [{ vAW with image_path := apiImagePath ['j'] ['A'] }, vBW] } }, true) := by
  have h := (regenerate_content_frame ['j'] fs6W docW vAW vBW [] [] JValue.null true
    rfl rfl rfl rfl rfl).1
  simpa using h

theorem contains_iff_memBEq {α : Type} [BEq α] [LawfulBEq α] (l : List α) (x : α) :
    l.contains x = true ↔ x ∈ l := by
  simp [List.contains_eq_any_beq, List.any_eq_true]

/-- Behaviour of the integrity sweep on a two-variant job: one retry per
initially-missing variant, all images present when it reports no error,
and the reported error is the descriptive message. -/
theorem integritySweep_pair (jobId : List Char) (a b : Variant)
    (images : List (List Char)) (retry : List Char → Bool) (hne : ¬ a.vid = b.vid) :
    ((integritySweep jobId [a, b] images retry).1.count a.vid =
      (if a.vid ∈ images then 0 else 1)) ∧
    ((integritySweep jobId [a, b] images retry).1.count b.vid =
      (if b.vid ∈ images then 0 else 1)) ∧
    ((integritySweep jobId [a, b] images retry).2.2 = none →
      a.vid ∈ (integritySweep jobId [a, b] images retry).2.1 ∧
      b.vid ∈ (integritySweep jobId [a, b] images retry).2.1) ∧
    (∀ e, (integritySweep jobId [a, b] images retry).2.2 = some e →
      e = sweepErrMsg jobId) := by
  have hne' : ¬ b.vid = a.vid := fun h => hne h.symm
  have hba : (b.vid == a.vid) = false := by
    cases hbeq : b.vid == a.vid
    · rfl
    · exact absurd (eq_of_beq hbeq) hne'
  unfold integritySweep
  by_cases hca : a.vid ∈ images <;> by_cases hcb : b.vid ∈ images
  · have hfilter : List.filter (fun v => !(images.contains v.vid)) [a, b] = [] := by
      simp [List.filter, hca, hcb]
    rw [hfilter]
    simp only [List.map_nil, List.isEmpty_nil, if_true]
    exact ⟨by simp [hca], by simp [hcb], fun _ => ⟨hca, hcb⟩, by simp⟩
  · have hfilter : List.filter (fun v => !(images.contains v.vid)) [a, b] = [b] := by
      simp [List.filter, hca, hcb]
    rw [hfilter]
    simp only [List.map_cons, List.map_nil, List.isEmpty_cons, Bool.false_eq_true, if_false]
    by_cases hrb : retry b.vid = true
    · have hf2 : List.filter retry [b.vid] = [b.vid] := by simp [List.filter, hrb]
      simp only [hf2]
      have hstill : List.filter
          (fun v => !((images ++ [b.vid]).contains v.vid)) [a, b] = [] := by
        simp [List.filter, hca]
      simp only [hstill]
      simp only [List.map_nil, List.isEmpty_nil, if_true]
      refine ⟨by simp [hca, List.count_cons, hba], by simp [hcb], fun _ => ?_, by simp⟩
      exact ⟨List.mem_append_left _ hca, List.mem_append_right _ (by simp)⟩
    · have hrb' : retry b.vid = false := by
        cases hx : retry b.vid
        · rfl
        · exact absurd hx hrb
      have hf2 : List.filter retry [b.vid] = [] := by simp [List.filter, hrb']
      simp only [hf2]
      have hstill : List.filter
          (fun v => !((images ++ []).contains v.vid)) [a, b] = [b] := by
        simp [List.filter, hca, hcb]
      simp only [hstill]
      simp only [List.map_cons, List.map_nil, List.isEmpty_cons, Bool.false_eq_true, if_false]
      refine ⟨by simp [hca, List.count_cons, hba], by simp [hcb], ?_, ?_⟩
      · intro hn; cases hn
      · intro e he
        exact (Option.some.inj he).symm
  · have hfilter : List.filter (fun v => !(images.contains v.vid)) [a, b] = [a] := by
      simp [List.filter, hca, hcb]
    rw [hfilter]
    simp only [List.map_cons, List.map_nil, List.isEmpty_cons, Bool.false_eq_true, if_false]
    by_cases hra : retry a.vid = true
    · have hf2 : List.filter retry [a.vid] = [a.vid] := by simp [List.filter, hra]
      simp only [hf2]
      have hstill : List.filter
          (fun v => !((images ++ [a.vid]).contains v.vid)) [a, b] = [] := by
        simp [List.filter, hcb]
      simp only [hstill]
      simp only [List.map_nil, List.isEmpty_nil, if_true]
      refine ⟨by simp [hca, List.count_cons], by simp [hcb, List.count_cons, hba, hne'], fun _ => ?_, by simp⟩
      exact ⟨List.mem_append_right _ (by simp), List.mem_append_left _ hcb⟩
    · have hra' : retry a.vid = false := by
        cases hx : retry a.vid
        · rfl
        · exact absurd hx hra
      have hf2 : List.filter retry [a.vid] = [] := by simp [List.filter, hra']
      simp only [hf2]
      have hstill : List.filter
          (fun v => !((images ++ []).contains v.vid)) [a, b] = [a] := by
        simp [List.filter, hca, hcb]
      simp only [hstill]
      simp only [List.map_cons, List.map_nil, List.isEmpty_cons, Bool.false_eq_true, if_false]
      refine ⟨by simp [hca, List.count_cons], by simp [hcb, List.count_cons, hba, hne'], ?_, ?_⟩
      · intro hn; cases hn
      · intro e he
        exact (Option.some.inj he).symm
  · have hfilter : List.filter (fun v => !(images.contains v.vid)) [a, b] = [a, b] := by
      simp [List.filter, hca, hcb]
    rw [hfilter]
    simp only [List.map_cons, List.map_nil, List.isEmpty_cons, Bool.false_eq_true, if_false]
    have hcountA : List.count a.vid [a.vid, b.vid] = 1 := by
      simp [List.count_cons, hba]
    have hcountB : List.count b.vid [a.vid, b.vid] = 1 := by
      simp [List.count_cons, hba, hne']
    by_cases hra : retry a.vid = true <;> by_cases hrb : retry b.vid = true
    · have hf2 : List.filter retry [a.vid, b.vid] = [a.vid, b.vid] := by
        simp [List.filter, hra, hrb]
      simp only [hf2]
      have hstill : List.filter
          (fun v => !((images ++ [a.vid, b.vid]).contains v.vid)) [a, b] = [] := by
        simp [List.filter]
      simp only [hstill]
      simp only [List.map_nil, List.isEmpty_nil, if_true]
      refine ⟨by simp [hca, hcountA], by simp [hcb, hcountB], fun _ => ?_, by simp⟩
      exact ⟨List.mem_append_right _ (by simp), List.mem_append_right _ (by simp)⟩
    · have hrb' : retry b.vid = false := by
        cases hx : retry b.vid
        · rfl
        · exact absurd hx hrb
      have hf2 : List.filter retry [a.vid, b.vid] = [a.vid] := by
        simp [List.filter, hra, hrb']
      simp only [hf2]
      have hstill : List.filter
          (fun v => !((images ++ [a.vid]).contains v.vid)) [a, b] = [b] := by
        simp [List.filter, hcb, hne']
      simp only [hstill]
      simp only [List.map_cons, List.map_nil, List.isEmpty_cons, Bool.false_eq_true, if_false]
      refine ⟨by simp [hca, hcountA], by simp [hcb, hcountB], ?_, ?_⟩
      · intro hn; cases hn
      · intro e he
        exact (Option.some.inj he).symm
    · have hra' : retry a.vid = false := by
        cases hx : retry a.vid
        · rfl
        · exact absurd hx hra
      have hf2 : List.filter retry [a.vid, b.vid] = [b.vid] := by
        simp [List.filter, hra', hrb]
      simp only [hf2]
      have hstill : List.filter
          (fun v => !((images ++ [b.vid]).contains v.vid)) [a, b] = [a] := by
        simp [List.filter, hca, hne]
      simp only [hstill]
      simp only [List.map_cons, List.map_nil, List.isEmpty_cons, Bool.false_eq_true, if_false]
      refine ⟨by simp [hca, hcountA], by simp [hcb, hcountB], ?_, ?_⟩
      · intro hn; cases hn
      · intro e he
        exact (Option.some.inj he).symm
    · have hra' : retry a.vid = false := by
        cases hx : retry a.vid
        · rfl
        · exact absurd hx hra
      have hrb' : retry b.vid = false := by
        cases hx : retry b.vid
        · rfl
        · exact absurd hx hrb
      have hf2 : List.filter retry [a.vid, b.vid] = [] := by
        simp [List.filter, hra', hrb']
      simp only [hf2]
      have hstill : List.filter
          (fun v => !((images ++ []).contains v.vid)) [a, b] = [a, b] := by
        simp [List.filter, hca, hcb]
      simp only [hstill]
      simp only [List.map_cons, List.map_nil, List.isEmpty_cons, Bool.false_eq_true, if_false]
      refine ⟨by simp [hca, hcountA], by simp [hcb, hcountB], ?_, ?_⟩
      · intro hn; cases hn
      · intro e he
        exact (Option.some.inj he).symm

theorem vid_of_pathUpdate (u : Variant) (c : Prop) [Decidable c] (p : List Char) :
    (if c then { u with image_path := p } else u).vid = u.vid := by
  by_cases h : c
  · rw [if_pos h]
  · rw [if_neg h]

/-- C2: in `run_job`'s post-image integrity sweep, each variant whose
image artifact is missing is retried exactly once (and present variants
are not retried); a job that fails carries a non-empty error; and a job
that completes has an existing image artifact for every variant of its
Result Document. -/
theorem run_job_integrity_sweep (jobId : List Char) (rec : JobRec) (fs : JobFS)
    (o : RunOracle) (sd : ScrapeData) (hs : o.scrape = some sd) :
    ((run_job jobId rec fs o).2.2.count ['A'] =
      (if (['A'] : List Char) ∈ o.imagesAfterGen then 0 else 1)) ∧
    ((run_job jobId rec fs o).2.2.count ['B'] =
      (if (['B'] : List Char) ∈ o.imagesAfterGen then 0 else 1)) ∧
    ((run_job jobId rec fs o).1.status = .failed →
      ∃ e, (run_job jobId rec fs o).1.error = some e ∧ e ≠ []) ∧
    ((run_job jobId rec fs o).1.status = .completed →
      ∀ v ∈ ((run_job jobId rec fs o).2.1.resultDoc.getD emptyDoc).post_variants,
        v.vid ∈ (run_job jobId rec fs o).2.1.images) := by
  obtain ⟨a, b, hab, ha, hb, hpa, hpb⟩ :=
    gpv_structure o.summaryText [] rec.opinion rec.tone jobId o.variantsRaw
  have hne : ¬ a.vid = b.vid := by rw [ha, hb]; decide
  have hsw := integritySweep_pair jobId a b o.imagesAfterGen o.retryImageOk hne
  unfold run_job
  simp only [hs, hab]
  cases hsw22 : (integritySweep jobId [a, b] o.imagesAfterGen o.retryImageOk).2.2 with
  | none =>
    refine ⟨?_, ?_, ?_, ?_⟩
    · rw [← ha]; exact hsw.1
    · rw [← hb]; exact hsw.2.1
    · intro hfail; simp at hfail
    · intro _
      simp only [Option.getD_some]
      intro v hv
      simp only [List.map_cons, List.map_nil, List.mem_cons, List.mem_singleton,
        List.not_mem_nil, or_false] at hv
      have hmem := hsw.2.2.1 hsw22
      rcases hv with hv | hv
      · rw [hv, vid_of_pathUpdate, ha]
        rw [ha] at hmem
        exact hmem.1
      · rw [hv, vid_of_pathUpdate, hb]
        rw [hb] at hmem
        exact hmem.2
  | some e =>
    refine ⟨?_, ?_, ?_, ?_⟩
    · rw [← ha]; exact hsw.1
    · rw [← hb]; exact hsw.2.1
    · intro _
      refine ⟨e, rfl, ?_⟩
      rw [hsw.2.2.2 e hsw22]
      simp [sweepErrMsg]
    · intro hcomp; simp at hcomp

/-- C2 witness: variant A's image missing after generation, retry
succeeds, through the claim theorem; the same run completes. -/
theorem run_job_integrity_sweep_witness :
    ((run_job ['j'] recW fsW missingAOracle).2.2.count ['A'] =
      (if (['A'] : List Char) ∈ missingAOracle.imagesAfterGen then 0 else 1)) ∧
    (run_job ['j'] recW fsW missingAOracle).1.status = Status.completed :=
  ⟨(run_job_integrity_sweep ['j'] recW fsW missingAOracle
      { title := "T".data, main_text := "body text".data } rfl).1, rfl⟩

/-- C3 counterexample: a parseable Draft Variants response whose
variants carry a single hashtag flows through `run_job` unchecked — the
job completes, yet the persisted Result Document's variants carry 1
hashtag each, not exactly 3. -/
theorem completed_doc_hashtags_counterexample :
    (run_job ['j'] recW fsW oneTagOracle).1.status = Status.completed ∧
    ((run_job ['j'] recW fsW oneTagOracle).2.1.resultDoc.getD
      emptyDoc).post_variants.map hashtagLen = [1, 1] :=
  ⟨rfl, rfl⟩

theorem path_of_pathUpdate (u : Variant) (c : Prop) [Decidable c] (k jobId : List Char)
    (hv : u.vid = k) (hp : u.image_path = apiImagePath jobId k) :
    (if c then { u with image_path := apiImagePath jobId u.vid } else u).image_path =
      apiImagePath jobId k := by
  by_cases h : c
  · rw [if_pos h, hv]
  · rw [if_neg h]; exact hp

theorem hashtags_of_pathUpdate (u : Variant) (c : Prop) [Decidable c] (p : List Char) :
    hashtagLen (if c then { u with image_path := p } else u) = hashtagLen u := by
  by_cases h : c
  · rw [if_pos h]; rfl
  · rw [if_neg h]

/-- C3 (amended): every completed `run_job` leaves a Result Document
with exactly the two variants `A` and `B`, each referencing its API
image URL (never a filesystem path); the hashtag count is exactly 3
whenever the variants are the deterministic fallback ones, but a parsed
model response's hashtag list is stored as-is, so its length is
unconstrained (see the counterexample). -/
theorem completed_doc_structure (jobId : List Char) (rec : JobRec) (fs : JobFS)
    (o : RunOracle) (sd : ScrapeData) (hs : o.scrape = some sd)
    (hcomp : (run_job jobId rec fs o).1.status = .completed) :
    ((run_job jobId rec fs o).2.1.resultDoc.getD emptyDoc).post_variants.map
      (fun v => v.vid) = [['A'], ['B']] ∧
    ((run_job jobId rec fs o).2.1.resultDoc.getD emptyDoc).post_variants.map
      (fun v => v.image_path) = [apiImagePath jobId ['A'], apiImagePath jobId ['B']] ∧
    (generate_post_variants_with_langchain o.summaryText [] rec.opinion rec.tone jobId
        o.variantsRaw = create_fallback_variants o.summaryText rec.opinion rec.tone jobId →
      ((run_job jobId rec fs o).2.1.resultDoc.getD emptyDoc).post_variants.map
        hashtagLen = [3, 3]) := by
  obtain ⟨a, b, hab, ha, hb, hpa, hpb⟩ :=
    gpv_structure o.summaryText [] rec.opinion rec.tone jobId o.variantsRaw
  unfold run_job at hcomp ⊢
  simp only [hs, hab] at hcomp ⊢
  cases hsw22 : (integritySweep jobId [a, b] o.imagesAfterGen o.retryImageOk).2.2 with
  | some e =>
    rw [hsw22] at hcomp
    simp at hcomp
  | none =>
    simp only [Option.getD_some, List.map_cons, List.map_nil]
    refine ⟨?_, ?_, ?_⟩
    · rw [vid_of_pathUpdate, vid_of_pathUpdate, ha, hb]
    · rw [path_of_pathUpdate a _ ['A'] jobId ha hpa, path_of_pathUpdate b _ ['B'] jobId hb hpb]
    · intro hfb
      obtain ⟨fa, fb, hf, _, _, _, _, hta, htb⟩ :=
        fallback_structure o.summaryText rec.opinion rec.tone jobId
      rw [hf] at hfb
      simp only [List.cons.injEq, and_true] at hfb
      rw [hashtags_of_pathUpdate, hashtags_of_pathUpdate, hfb.1, hfb.2, hta, htb]

/-- C3 amended witness: a completed concrete run through the claim
theorem. -/
theorem completed_doc_structure_witness :
    ((run_job ['j'] recW fsW oneTagOracle).2.1.resultDoc.getD
      emptyDoc).post_variants.map (fun v => v.vid) = [['A'], ['B']] :=
  (completed_doc_structure ['j'] recW fsW oneTagOracle
    { title := "T".data, main_text := "body text".data } rfl rfl).1

/-- C8 counterexample: on the input `null` the extraction returns the
parsed Python `None` — the claim that it never returns null fails as
stated. -/
theorem extract_returns_null_counterexample :
    extract_json_from_text ['n', 'u', 'l', 'l'] = .ok JValue.null := rfl

/-- C8 (amended): `_extract_json_from_text` is total — on every input it
either returns a parsed value (possibly the null literal itself, see the
counterexample) or raises; it raises exactly when the input is empty or
all three parse strategies (strict JSON, literal evaluation, quote
substitution plus strict JSON) fail on the candidate text, and the
raised message is bounded: at most 58 fixed characters plus a 200
character preview of the candidate — never unboundedly more. -/
theorem extract_total_bounded (text : List Char) :
    (∃ v, extract_json_from_text text = .ok v) ∨
    (∃ e, extract_json_from_text text = .error e ∧ e.length ≤ 258 ∧
      (text = [] ∨
        (jsonLoads (candidateOf text) = none ∧ litEval (candidateOf text) = none ∧
          jsonLoads (swapQuotes (candidateOf text)) = none))) := by
  unfold extract_json_from_text
  by_cases ht : text = []
  · rw [if_pos ht]
    refine Or.inr ⟨_, rfl, ?_, Or.inl ht⟩
    have h10 : ("Empty text".data).length = 10 := rfl
    omega
  · rw [if_neg ht]
    cases h1 : jsonLoads (candidateOf text) with
    | some v => exact Or.inl ⟨v, rfl⟩
    | none =>
      cases h2 : litEval (candidateOf text) with
      | some v => exact Or.inl ⟨v, rfl⟩
      | none =>
        cases h3 : jsonLoads (swapQuotes (candidateOf text)) with
        | some v => exact Or.inl ⟨v, rfl⟩
        | none =>
          refine Or.inr ⟨_, rfl, ?_, Or.inr ⟨rfl, rfl, rfl⟩⟩
          have hA : ("Failed to parse model JSON response: Expecting value".data).length = 52 := rfl
          have hB : ("Raw: ".data).length = 5 := rfl
          have hT := List.length_take_le 200 (candidateOf text)
          have hlen : (parseFailMsg (candidateOf text)).length =
              58 + (List.take 200 (candidateOf text)).length := by
            simp [parseFailMsg]
            omega
          rw [hlen]
          omega

theorem hexVal_hexDigitCh (m : Nat) (h : m < 16) : hexVal (hexDigitCh m) = some m := by
  interval_cases m <;> decide

theorem jpStrBody_escStr (s rest : List Char) :
    jpStrBody (escStr s ++ qChar :: rest) = some (s, rest) := by
  induction s with
  | nil =>
    show jpStrBody ([] ++ qChar :: rest) = _
    rw [List.nil_append, jpStrBody.eq_def]
    simp +decide
  | cons c t ih =>
    show jpStrBody ((escChar c ++ escStr t) ++ qChar :: rest) = _
    rw [List.append_assoc]
    by_cases hq : c = qChar
    · subst hq
      rw [show escChar qChar = [bsChar, qChar] from rfl, jpStrBody.eq_def]
      simp +decide [ih]
    · by_cases hbs : c = bsChar
      · subst hbs
        rw [show escChar bsChar = [bsChar, bsChar] from by simp +decide [escChar], jpStrBody.eq_def]
        simp +decide [ih]
      · by_cases h8 : c.toNat = 8
        · have hc : Char.ofNat 8 = c := by rw [← h8, Char.ofNat_toNat]
          rw [show escChar c = [bsChar, 'b'] from by simp [escChar, hq, hbs, h8], jpStrBody.eq_def]
          simp +decide [ih]
          exact hc
        · by_cases h9 : c.toNat = 9
          · have hc : Char.ofNat 9 = c := by rw [← h9, Char.ofNat_toNat]
            rw [show escChar c = [bsChar, 't'] from by simp [escChar, hq, hbs, h8, h9],
              jpStrBody.eq_def]
            simp +decide [ih]
            exact hc
          · by_cases h10 : c.toNat = 10
            · have hc : nlChar = c := by
                show Char.ofNat 10 = c
                rw [← h10, Char.ofNat_toNat]
              rw [show escChar c = [bsChar, 'n'] from by simp [escChar, hq, hbs, h8, h9, h10],
                jpStrBody.eq_def]
              simp +decide [ih]
              exact hc
            · by_cases h12 : c.toNat = 12
              · have hc : Char.ofNat 12 = c := by rw [← h12, Char.ofNat_toNat]
                rw [show escChar c = [bsChar, 'f'] from by
                  simp [escChar, hq, hbs, h8, h9, h10, h12], jpStrBody.eq_def]
                simp +decide [ih]
                exact hc
              · by_cases h13 : c.toNat = 13
                · have hc : Char.ofNat 13 = c := by rw [← h13, Char.ofNat_toNat]
                  rw [show escChar c = [bsChar, 'r'] from by
                    simp [escChar, hq, hbs, h8, h9, h10, h12, h13], jpStrBody.eq_def]
                  simp +decide [ih]
                  exact hc
                · by_cases hlt : c.toNat < 32
                  · have hdiv : c.toNat / 16 < 16 := by omega
                    have hmod : c.toNat % 16 < 16 := by omega
                    have hc : Char.ofNat (16 * (c.toNat / 16) + c.toNat % 16) = c := by
                      rw [show 16 * (c.toNat / 16) + c.toNat % 16 = c.toNat from by
                        omega, Char.ofNat_toNat]
                    rw [show escChar c = [bsChar, 'u', '0', '0', hexDigitCh (c.toNat / 16),
                        hexDigitCh (c.toNat % 16)] from by
                      simp [escChar, hq, hbs, h8, h9, h10, h12, h13, hlt], jpStrBody.eq_def]
                    simp +decide [ih, hexVal_hexDigitCh _ hdiv, hexVal_hexDigitCh _ hmod,
                      (show hexVal '0' = some 0 from rfl)]
                    exact hc
                  · rw [show escChar c = [c] from by
                      simp [escChar, hq, hbs, h8, h9, h10, h12, h13, hlt], jpStrBody.eq_def]
                    simp +decide [ih, hq, hbs, hlt]

theorem restStop_head (c : Char) (t : List Char) (h : restStop (c :: t) = true) :
    isDigitCh c = false ∧ ¬ c = '.' ∧ ¬ c = 'e' ∧ ¬ c = 'E' ∧ ¬ c = '_' := by
  simp [restStop] at h
  tauto

theorem jpNumTail_of_restStop (rest : List Char) (h : restStop rest = true) :
    jpNumTail rest = true := by
  cases rest with
  | nil => rfl
  | cons c t =>
    obtain ⟨h1, h2, h3, h4, h5⟩ := restStop_head c t h
    simp [jpNumTail, h2, h3, h4]

theorem toNat_ofNat_digit (n : Nat) (h : n < 10) :
    (Char.ofNat (48 + n)).toNat = 48 + n := by
  interval_cases n <;> decide

theorem digitsVal_append_one (xs : List Char) (c : Char) :
    digitsVal (xs ++ [c]) = digitsVal xs * 10 + (c.toNat - 48) := by
  unfold digitsVal
  rw [List.foldl_append]
  rfl

theorem natDigitsAux_cons : ∀ fuel n, n < fuel →
    ∃ c ds, natDigitsAux fuel n = c :: ds ∧ isDigitCh c = true ∧
      (n ≠ 0 → ¬ c = '0') ∧ (∀ d ∈ ds, isDigitCh d = true) := by
  intro fuel
  induction fuel with
  | zero => intro n h; exact absurd h (Nat.not_lt_zero n)
  | succ fuel ih =>
    intro n h
    rw [natDigitsAux]
    by_cases hlt : n < 10
    · rw [if_pos hlt]
      refine ⟨Char.ofNat (48 + n), [], rfl, ?_, ?_, by intro d hd; cases hd⟩
      · simp [isDigitCh, toNat_ofNat_digit n hlt]
        omega
      · intro hn0 hc
        have : (Char.ofNat (48 + n)).toNat = 48 := by rw [hc]; decide
        rw [toNat_ofNat_digit n hlt] at this
        omega
    · rw [if_neg hlt]
      have hdiv : n / 10 < fuel := by
        have h2 : n / 10 < n := Nat.div_lt_self (by omega) (by omega)
        omega
      obtain ⟨c, ds, hds, hcdig, hc0, hall⟩ := ih (n / 10) hdiv
      have hmod : n % 10 < 10 := Nat.mod_lt n (by omega)
      refine ⟨c, ds ++ [Char.ofNat (48 + n % 10)], by rw [hds]; rfl, hcdig,
        fun _ => hc0 (by omega), ?_⟩
      intro d hd
      rcases List.mem_append.mp hd with hd | hd
      · exact hall d hd
      · have : d = Char.ofNat (48 + n % 10) := by simpa using hd
        rw [this]
        simp [isDigitCh, toNat_ofNat_digit _ hmod]
        omega

theorem digitsVal_natDigitsAux : ∀ fuel n, n < fuel →
    digitsVal (natDigitsAux fuel n) = n := by
  intro fuel
  induction fuel with
  | zero => intro n h; exact absurd h (Nat.not_lt_zero n)
  | succ fuel ih =>
    intro n h
    rw [natDigitsAux]
    by_cases hlt : n < 10
    · rw [if_pos hlt]
      show digitsVal ([] ++ [Char.ofNat (48 + n)]) = n
      rw [digitsVal_append_one, toNat_ofNat_digit n hlt]
      show 0 * 10 + (48 + n - 48) = n
      omega
    · rw [if_neg hlt]
      have hdiv : n / 10 < fuel := by
        have h2 : n / 10 < n := Nat.div_lt_self (by omega) (by omega)
        omega
      have hmod : n % 10 < 10 := Nat.mod_lt n (by omega)
      rw [digitsVal_append_one, ih (n / 10) hdiv, toNat_ofNat_digit _ hmod]
      omega

theorem digitsVal_natDigits (n : Nat) : digitsVal (natDigits n) = n :=
  digitsVal_natDigitsAux (n + 1) n (Nat.lt_succ_self n)

theorem natDigits_cons (n : Nat) :
    ∃ c ds, natDigits n = c :: ds ∧ isDigitCh c = true ∧
      (n ≠ 0 → ¬ c = '0') ∧ (∀ d ∈ ds, isDigitCh d = true) :=
  natDigitsAux_cons (n + 1) n (Nat.lt_succ_self n)

theorem takeDigits_append (ds rest : List Char) (hds : ∀ c ∈ ds, isDigitCh c = true)
    (hrest : restStop rest = true) : takeDigits (ds ++ rest) = (ds, rest) := by
  induction ds with
  | nil =>
    cases rest with
    | nil => rfl
    | cons c t =>
      obtain ⟨h1, _, _, _, _⟩ := restStop_head c t hrest
      simp [takeDigits, h1]
  | cons d t ih =>
    have hd : isDigitCh d = true := hds d (List.mem_cons_self d t)
    have ht : ∀ c ∈ t, isDigitCh c = true := fun c hc => hds c (List.mem_cons_of_mem d hc)
    simp [takeDigits, hd, ih ht]

theorem jpIntTok_natDigits (n : Nat) (rest : List Char) (hrest : restStop rest = true) :
    jpIntTok (natDigits n ++ rest) = some (n, rest) := by
  by_cases hn : n = 0
  · subst hn
    show jpIntTok ('0' :: rest) = some (0, rest)
    simp [jpIntTok]
  · obtain ⟨c, ds, hds, hcdig, hc0, hall⟩ := natDigits_cons n
    rw [hds]
    show jpIntTok (c :: (ds ++ rest)) = some (n, rest)
    rw [jpIntTok.eq_def]
    simp only [hc0 hn, if_false, hcdig, if_true]
    rw [takeDigits_append ds rest hall hrest]
    have hval : digitsVal (c :: ds) = n := by
      rw [← hds, digitsVal_natDigits]
    simp [hval]

theorem litIntTok_natDigits (n : Nat) (rest : List Char) (hrest : restStop rest = true) :
    litIntTok (natDigits n ++ rest) = some (n, rest) := by
  by_cases hn : n = 0
  · subst hn
    show litIntTok ('0' :: rest) = some (0, rest)
    rw [litIntTok.eq_def]
    cases rest with
    | nil => simp
    | cons c t =>
      obtain ⟨h1, h2, h3, h4, h5⟩ := restStop_head c t hrest
      simp [h1, h2, h3, h4, h5]
  · obtain ⟨c, ds, hds, hcdig, hc0, hall⟩ := natDigits_cons n
    rw [hds]
    show litIntTok (c :: (ds ++ rest)) = some (n, rest)
    rw [litIntTok.eq_def]
    simp only [hc0 hn, if_false, hcdig, if_true]
    rw [takeDigits_append ds rest hall hrest]
    have hval : digitsVal (c :: ds) = n := by
      rw [← hds, digitsVal_natDigits]
    cases rest with
    | nil => simp [hval]
    | cons c2 t =>
      obtain ⟨h1, h2, h3, h4, h5⟩ := restStop_head c2 t hrest
      simp [hval, h2, h3, h4, h5]

theorem skipWs_noop (c : Char) (l : List Char) (h : isJsonWs c = false) :
    skipWs (c :: l) = c :: l := by
  simp [skipWs, dropLeading, h]

theorem jpValue_cons_ws (fuel : Nat) (c : Char) (l : List Char) (h : isJsonWs c = true) :
    jpValue fuel (c :: l) = jpValue fuel l := by
  cases fuel with
  | zero => rfl
  | succ f =>
    rw [jpValue.eq_def, jpValue.eq_def]
    have hsw : skipWs (c :: l) = skipWs l := by simp [skipWs, dropLeading, h]
    simp only [hsw]

theorem litValue_cons_ws (fuel : Nat) (c : Char) (l : List Char) (h : isJsonWs c = true) :
    litValue fuel (c :: l) = litValue fuel l := by
  cases fuel with
  | zero => rfl
  | succ f =>
    rw [litValue.eq_def, litValue.eq_def]
    have hsw : skipWs (c :: l) = skipWs l := by simp [skipWs, dropLeading, h]
    simp only [hsw]

theorem jpItems1_cons_ws (fuel : Nat) (c : Char) (l : List Char) (h : isJsonWs c = true) :
    jpItems1 fuel (c :: l) = jpItems1 fuel l := by
  cases fuel with
  | zero => rfl
  | succ f =>
    rw [jpItems1.eq_def, jpItems1.eq_def]
    simp only [jpValue_cons_ws f c l h]

theorem litItems1_cons_ws (fuel : Nat) (c : Char) (l : List Char) (h : isJsonWs c = true) :
    litItems1 fuel (c :: l) = litItems1 fuel l := by
  cases fuel with
  | zero => rfl
  | succ f =>
    rw [litItems1.eq_def, litItems1.eq_def]
    simp only [litValue_cons_ws f c l h]

theorem litMembers1_cons_ws (fuel : Nat) (c : Char) (l : List Char) (h : isJsonWs c = true) :
    litMembers1 fuel (c :: l) = litMembers1 fuel l := by
  cases fuel with
  | zero => rfl
  | succ f =>
    rw [litMembers1.eq_def, litMembers1.eq_def]
    simp only [litValue_cons_ws f c l h]

theorem jp_null (f : Nat) (rest : List Char) :
    jpValue (f + 1) ('n' :: 'u' :: 'l' :: 'l' :: rest) = some (.null, rest) := by
  simp +decide [jpValue, skipWs, dropLeading]

theorem jp_true (f : Nat) (rest : List Char) :
    jpValue (f + 1) ('t' :: 'r' :: 'u' :: 'e' :: rest) = some (.bool true, rest) := by
  simp +decide [jpValue, skipWs, dropLeading]

theorem jp_false (f : Nat) (rest : List Char) :
    jpValue (f + 1) ('f' :: 'a' :: 'l' :: 's' :: 'e' :: rest) = some (.bool false, rest) := by
  simp +decide [jpValue, skipWs, dropLeading]

theorem jp_str (f : Nat) (s rest : List Char) :
    jpValue (f + 1) (qChar :: (escStr s ++ qChar :: rest)) = some (.str s, rest) := by
  simp +decide [jpValue, skipWs, dropLeading, jpStrBody_escStr s rest]

theorem isDigitCh_props (c : Char) (h : isDigitCh c = true) :
    isJsonWs c = false ∧ ¬ c = '{' ∧ ¬ c = '[' ∧ ¬ c = qChar ∧ ¬ c = '-' ∧
    ¬ c = 't' ∧ ¬ c = 'f' ∧ ¬ c = 'n' ∧ ¬ c = apChar ∧ ¬ c = 'T' ∧ ¬ c = 'F' ∧
    ¬ c = 'N' := by
  refine ⟨?_, ?_, ?_, ?_, ?_, ?_, ?_, ?_, ?_, ?_, ?_, ?_⟩
  · cases hw : isJsonWs c
    · rfl
    · exfalso
      simp only [isJsonWs, Bool.or_eq_true, decide_eq_true_eq] at hw
      rcases hw with ((he | he) | he) | he <;> (rw [he] at h; exact absurd h (by decide))
  all_goals intro he
  all_goals rw [he] at h
  all_goals exact absurd h (by decide)

theorem jp_num (f : Nat) (n : Int) (rest : List Char) (hrest : restStop rest = true) :
    jpValue (f + 1) (intChars n ++ rest) = some (.num n, rest) := by
  by_cases hneg : n < 0
  · have hi : intChars n = '-' :: natDigits n.natAbs := by simp [intChars, hneg]
    rw [hi]
    show jpValue (f + 1) ('-' :: (natDigits n.natAbs ++ rest)) = _
    rw [jpValue.eq_def]
    simp +decide only [skipWs_noop '-' _ (by decide)]
    rw [jpIntTok_natDigits n.natAbs rest hrest]
    simp [jpNumTail_of_restStop rest hrest]
    rw [abs_of_neg hneg, neg_neg]
  · have hi : intChars n = natDigits n.natAbs := by simp [intChars, hneg]
    obtain ⟨c, ds, hds, hcdig, hc0, hall⟩ := natDigits_cons n.natAbs
    rw [hi, hds]
    show jpValue (f + 1) (c :: (ds ++ rest)) = _
    obtain ⟨hws, hb, hk, hq, hm, ht, hf, hn, _, _, _, _⟩ := isDigitCh_props c hcdig
    rw [jpValue.eq_def]
    simp only [skipWs_noop c _ hws]
    simp only [hb, hk, hq, hm, ht, hf, hn, if_false, hcdig, if_true]
    have hcons : c :: (ds ++ rest) = natDigits n.natAbs ++ rest := by rw [hds]; rfl
    rw [hcons, jpIntTok_natDigits n.natAbs rest hrest]
    simp [jpNumTail_of_restStop rest hrest]
    omega

theorem lit_num (f : Nat) (n : Int) (rest : List Char) (hrest : restStop rest = true) :
    litValue (f + 1) (intChars n ++ rest) = some (.num n, rest) := by
  by_cases hneg : n < 0
  · have hi : intChars n = '-' :: natDigits n.natAbs := by simp [intChars, hneg]
    rw [hi]
    show litValue (f + 1) ('-' :: (natDigits n.natAbs ++ rest)) = _
    rw [litValue.eq_def]
    simp +decide only [skipWs_noop '-' _ (by decide)]
    rw [litIntTok_natDigits n.natAbs rest hrest]
    simp
    rw [abs_of_neg hneg, neg_neg]
  · have hi : intChars n = natDigits n.natAbs := by simp [intChars, hneg]
    obtain ⟨c, ds, hds, hcdig, hc0, hall⟩ := natDigits_cons n.natAbs
    rw [hi, hds]
    show litValue (f + 1) (c :: (ds ++ rest)) = _
    obtain ⟨hws, hb, hk, hq, hm, _, _, _, hap, hT, hF, hN⟩ := isDigitCh_props c hcdig
    rw [litValue.eq_def]
    simp only [skipWs_noop c _ hws]
    simp only [hb, hk, hq, hm, hap, hT, hF, hN, if_false, hcdig, if_true, Bool.or_self,
      decide_False, Bool.false_eq_true]
    have hcons : c :: (ds ++ rest) = natDigits n.natAbs ++ rest := by rw [hds]; rfl
    rw [hcons, litIntTok_natDigits n.natAbs rest hrest]
    simp
    omega

theorem restStop_close (c : Char) (rest : List Char)
    (h : c = ']' ∨ c = '}' ∨ c = ',') : restStop (c :: rest) = true := by
  rcases h with h | h | h <;> (subst h; simp +decide [restStop])

theorem jp_arr_nil (f : Nat) (rest : List Char) :
    jpValue (f + 1) ('[' :: ']' :: rest) = some (.arr .nil, rest) := by
  simp +decide [jpValue, skipWs, dropLeading]

theorem jp_obj_nil (f : Nat) (rest : List Char) :
    jpValue (f + 1) ('{' :: '}' :: rest) = some (.obj .nil, rest) := by
  simp +decide [jpValue, skipWs, dropLeading]

theorem jp_arr_go (f : Nat) (c : Char) (rest' : List Char)
    (hws : isJsonWs c = false) (hnb : ¬ c = ']') :
    jpValue (f + 1) ('[' :: c :: rest') =
      (jpItems1 f (c :: rest')).map (fun p => (JValue.arr p.1, p.2)) := by
  rw [jpValue.eq_def]
  simp +decide only [skipWs_noop '[' _ (by decide), skipWs_noop c _ hws]
  simp [hnb]

theorem jp_obj_go (f : Nat) (c : Char) (rest' : List Char)
    (hws : isJsonWs c = false) (hnb : ¬ c = '}') :
    jpValue (f + 1) ('{' :: c :: rest') =
      (jpMembers1 f (c :: rest')).map (fun p => (JValue.obj p.1, p.2)) := by
  rw [jpValue.eq_def]
  simp +decide only [skipWs_noop '{' _ (by decide), skipWs_noop c _ hws]
  simp [hnb]

theorem dumpsV_length_pos : ∀ v : JValue, 1 ≤ (dumpsV v).length := by
  intro v
  cases v with
  | null => decide
  | bool b => cases b <;> decide
  | num n =>
    show 1 ≤ (intChars n).length
    obtain ⟨c, ds, hds, _, _, _⟩ := natDigits_cons n.natAbs
    unfold intChars
    by_cases hneg : n < 0
    · rw [if_pos hneg]
      simp
    · rw [if_neg hneg, hds]
      simp
  | str s => simp [dumpsV]
  | arr items => cases items <;> simp [dumpsV]
  | obj members => cases members <;> simp [dumpsV]

theorem dumpsV_head : ∀ v : JValue, ∃ c t, dumpsV v = c :: t ∧ isJsonWs c = false ∧
    ¬ c = ']' ∧ ¬ c = '}' := by
  intro v
  cases v with
  | null => refine ⟨_, _, rfl, ?_, ?_, ?_⟩ <;> decide
  | bool b => cases b <;> (refine ⟨_, _, rfl, ?_, ?_, ?_⟩ <;> decide)
  | num n =>
    show ∃ c t, intChars n = c :: t ∧ _
    unfold intChars
    by_cases hneg : n < 0
    · rw [if_pos hneg]
      refine ⟨_, _, rfl, ?_, ?_, ?_⟩ <;> decide
    · rw [if_neg hneg]
      obtain ⟨c, ds, hds, hcdig, _, _⟩ := natDigits_cons n.natAbs
      have h1 : isJsonWs c = false := (isDigitCh_props c hcdig).1
      refine ⟨c, ds, hds, h1, ?_, ?_⟩
      · intro he; rw [he] at hcdig; exact absurd hcdig (by decide)
      · intro he; rw [he] at hcdig; exact absurd hcdig (by decide)
  | str s => refine ⟨_, _, rfl, ?_, ?_, ?_⟩ <;> decide
  | arr items =>
    cases items <;> (refine ⟨_, _, rfl, ?_, ?_, ?_⟩ <;> decide)
  | obj members =>
    cases members <;> (refine ⟨_, _, rfl, ?_, ?_, ?_⟩ <;> decide)

theorem jpMembers1_cons_ws (fuel : Nat) (c : Char) (l : List Char) (h : isJsonWs c = true) :
    jpMembers1 fuel (c :: l) = jpMembers1 fuel l := by
  cases fuel with
  | zero => rfl
  | succ f =>
    rw [jpMembers1.eq_def, jpMembers1.eq_def]
    have hsw : skipWs (c :: l) = skipWs l := by simp [skipWs, dropLeading, h]
    simp only [hsw]

mutual

theorem jp_roundtrip_V (v : JValue) : ∀ (fuel : Nat) (rest : List Char),
    (dumpsV v).length < fuel → restStop rest = true →
    jpValue fuel (dumpsV v ++ rest) = some (v, rest) := by
  intro fuel rest hfuel hrest
  cases fuel with
  | zero => exact absurd hfuel (by omega)
  | succ f =>
    cases v with
    | null => exact jp_null f rest
    | bool b =>
      cases b
      · exact jp_false f rest
      · exact jp_true f rest
    | num n => exact jp_num f n rest hrest
    | str s =>
      have hshape : dumpsV (JValue.str s) ++ rest = qChar :: (escStr s ++ qChar :: rest) := by
        simp [dumpsV]
      rw [hshape]
      exact jp_str f s rest
    | arr items =>
      cases items with
      | nil => exact jp_arr_nil f rest
      | cons hd tl =>
        have hlen : (dumpsV (JValue.arr (.cons hd tl))).length =
            (dumpsItems (.cons hd tl)).length + 2 := by
          simp [dumpsV]
        have hshape : dumpsV (JValue.arr (.cons hd tl)) ++ rest =
            '[' :: (dumpsItems (.cons hd tl) ++ ']' :: rest) := by
          simp [dumpsV]
        obtain ⟨c, t, hct, hws, hnb, _⟩ := dumpsV_head hd
        obtain ⟨X, hX⟩ : ∃ X, dumpsItems (.cons hd tl) = dumpsV hd ++ X := by
          cases tl
          · exact ⟨[], by simp [dumpsItems]⟩
          · exact ⟨',' :: ' ' :: dumpsItems _, rfl⟩
        have hcons : dumpsItems (.cons hd tl) ++ ']' :: rest = c :: (t ++ X ++ ']' :: rest) := by
          rw [hX, hct]
          simp
        rw [hshape, hcons, jp_arr_go f c _ hws hnb, ← hcons,
          jp_roundtrip_items (.cons hd tl) f rest (by intro hcontra; cases hcontra) (by omega)]
        rfl
    | obj members =>
      cases members with
      | nil => exact jp_obj_nil f rest
      | cons k val tl =>
        have hlen : (dumpsV (JValue.obj (.cons k val tl))).length =
            (dumpsMembers (.cons k val tl)).length + 2 := by
          simp [dumpsV]
        have hshape : dumpsV (JValue.obj (.cons k val tl)) ++ rest =
            '{' :: (dumpsMembers (.cons k val tl) ++ '}' :: rest) := by
          simp [dumpsV]
        obtain ⟨X, hX⟩ : ∃ X, dumpsMembers (.cons k val tl) = qChar :: X := by
          cases tl
          · exact ⟨_, rfl⟩
          · exact ⟨_, rfl⟩
        have hcons : dumpsMembers (.cons k val tl) ++ '}' :: rest =
            qChar :: (X ++ '}' :: rest) := by
          rw [hX]
          simp
        rw [hshape, hcons, jp_obj_go f qChar _ (by decide) (by decide), ← hcons,
          jp_roundtrip_members (.cons k val tl) f rest (by intro hcontra; cases hcontra) (by omega)]
        rfl

theorem jp_roundtrip_items (its : JList) : ∀ (fuel : Nat) (rest : List Char),
    its ≠ .nil → (dumpsItems its).length + 1 < fuel →
    jpItems1 fuel (dumpsItems its ++ ']' :: rest) = some (its, rest) := by
  intro fuel rest hne hfuel
  cases fuel with
  | zero => exact absurd hfuel (by omega)
  | succ f =>
    cases its with
    | nil => exact absurd rfl hne
    | cons hd tl =>
      cases tl with
      | nil =>
        have hl : dumpsItems (.cons hd .nil) = dumpsV hd := by simp [dumpsItems]
        rw [hl] at hfuel ⊢
        rw [jpItems1.eq_def]
        simp +decide only [jp_roundtrip_V hd f (']' :: rest) (by omega)
          (restStop_close ']' rest (Or.inl rfl)), skipWs_noop ']' rest (by decide)]
      | cons hd2 tl2 =>
        have hl : dumpsItems (.cons hd (.cons hd2 tl2)) =
            dumpsV hd ++ ',' :: ' ' :: dumpsItems (.cons hd2 tl2) := rfl
        have hlen : (dumpsItems (.cons hd (.cons hd2 tl2))).length =
            (dumpsV hd).length + 2 + (dumpsItems (.cons hd2 tl2)).length := by
          rw [hl]
          simp
          omega
        have hpos := dumpsV_length_pos hd
        have hshape : dumpsItems (.cons hd (.cons hd2 tl2)) ++ ']' :: rest =
            dumpsV hd ++ (',' :: ' ' :: (dumpsItems (.cons hd2 tl2) ++ ']' :: rest)) := by
          rw [hl]
          simp
        rw [hshape, jpItems1.eq_def]
        simp +decide only [jp_roundtrip_V hd f _ (by omega)
          (restStop_close ',' _ (Or.inr (Or.inr rfl))), skipWs_noop ',' _ (by decide)]
        rw [jpItems1_cons_ws f ' ' _ (by decide),
          jp_roundtrip_items (.cons hd2 tl2) f rest (by intro hcontra; cases hcontra) (by omega)]
        rfl

theorem jp_roundtrip_members (ms : JObj) : ∀ (fuel : Nat) (rest : List Char),
    ms ≠ .nil → (dumpsMembers ms).length + 1 < fuel →
    jpMembers1 fuel (dumpsMembers ms ++ '}' :: rest) = some (ms, rest) := by
  intro fuel rest hne hfuel
  cases fuel with
  | zero => exact absurd hfuel (by omega)
  | succ f =>
    cases ms with
    | nil => exact absurd rfl hne
    | cons k val tl =>
      cases tl with
      | nil =>
        have hl : dumpsMembers (.cons k val .nil) =
            qChar :: escStr k ++ qChar :: ':' :: ' ' :: dumpsV val := rfl
        have hlen : (dumpsMembers (.cons k val .nil)).length =
            (escStr k).length + (dumpsV val).length + 4 := by
          rw [hl]
          simp
          omega
        have hshape : dumpsMembers (.cons k val .nil) ++ '}' :: rest =
            qChar :: (escStr k ++ qChar :: (':' :: (' ' :: (dumpsV val ++ '}' :: rest)))) := by
          rw [hl]
          simp
        rw [hshape, jpMembers1.eq_def]
        simp +decide only [skipWs_noop qChar _ (by decide),
          jpStrBody_escStr k (':' :: (' ' :: (dumpsV val ++ '}' :: rest))),
          skipWs_noop ':' _ (by decide), jpValue_cons_ws f ' ' _ (by decide),
          jp_roundtrip_V val f ('}' :: rest) (by omega)
            (restStop_close '}' rest (Or.inr (Or.inl rfl))),
          skipWs_noop '}' rest (by decide)]
        simp
      | cons k2 v2 tl2 =>
        have hl : dumpsMembers (.cons k val (.cons k2 v2 tl2)) =
            qChar :: escStr k ++ qChar :: ':' :: ' ' :: dumpsV val ++
              ',' :: ' ' :: dumpsMembers (.cons k2 v2 tl2) := rfl
        have hlen : (dumpsMembers (.cons k val (.cons k2 v2 tl2))).length =
            (escStr k).length + (dumpsV val).length +
              (dumpsMembers (.cons k2 v2 tl2)).length + 6 := by
          rw [hl]
          simp
          omega
        have hshape : dumpsMembers (.cons k val (.cons k2 v2 tl2)) ++ '}' :: rest =
            qChar :: (escStr k ++ qChar :: (':' :: (' ' :: (dumpsV val ++
              ',' :: (' ' :: (dumpsMembers (.cons k2 v2 tl2) ++ '}' :: rest)))))) := by
          rw [hl]
          simp
        rw [hshape, jpMembers1.eq_def]
        simp +decide only [skipWs_noop qChar _ (by decide),
          jpStrBody_escStr k (':' :: (' ' :: (dumpsV val ++
            ',' :: (' ' :: (dumpsMembers (.cons k2 v2 tl2) ++ '}' :: rest))))),
          skipWs_noop ':' _ (by decide), jpValue_cons_ws f ' ' _ (by decide),
          jp_roundtrip_V val f _ (by omega)
            (restStop_close ',' _ (Or.inr (Or.inr rfl))),
          skipWs_noop ',' _ (by decide)]
        rw [jpMembers1_cons_ws f ' ' _ (by decide),
          jp_roundtrip_members (.cons k2 v2 tl2) f rest (by intro hcontra; cases hcontra)
            (by omega)]
        rfl

end

theorem substQuotes_eq_of_not_mem (l : List Char) (h : qChar ∉ l) : substQuotes l = l := by
  unfold substQuotes
  induction l with
  | nil => rfl
  | cons c t ih =>
    simp only [List.mem_cons, not_or] at h
    have hne : ¬ c = qChar := fun he => h.1 he.symm
    simp only [List.map_cons, if_neg hne, ih h.2]

theorem swapQuotes_substQuotes (l : List Char) (h : apChar ∉ l) :
    swapQuotes (substQuotes l) = l := by
  unfold swapQuotes substQuotes
  induction l with
  | nil => rfl
  | cons c t ih =>
    simp only [List.mem_cons, not_or] at h
    simp only [List.map_cons, ih h.2, List.cons.injEq, and_true]
    by_cases hq : c = qChar
    · rw [if_pos hq, if_pos rfl, hq]
    · have hne : ¬ c = apChar := fun he => h.1 he.symm
      rw [if_neg hq, if_neg hne]

theorem isDigitCh_ofNat_digit (m : Nat) (h : m < 10) :
    isDigitCh (Char.ofNat (48 + m)) = true := by
  interval_cases m <;> decide

theorem natDigitsAux_all_digits : ∀ fuel n c, c ∈ natDigitsAux fuel n →
    isDigitCh c = true := by
  intro fuel
  induction fuel with
  | zero => intro n c hc; cases hc
  | succ f ih =>
    intro n c hc
    rw [natDigitsAux] at hc
    by_cases hlt : n < 10
    · rw [if_pos hlt] at hc
      simp only [List.mem_singleton] at hc
      subst hc
      exact isDigitCh_ofNat_digit n hlt
    · rw [if_neg hlt] at hc
      rcases List.mem_append.mp hc with hc | hc
      · exact ih _ c hc
      · simp only [List.mem_singleton] at hc
        subst hc
        exact isDigitCh_ofNat_digit _ (Nat.mod_lt n (by omega))

theorem mem_intChars (n : Int) (c : Char) (hc : c ∈ intChars n) :
    isDigitCh c = true ∨ c = '-' := by
  unfold intChars at hc
  by_cases hneg : n < 0
  · rw [if_pos hneg] at hc
    rcases List.mem_cons.mp hc with hc | hc
    · exact Or.inr hc
    · exact Or.inl (natDigitsAux_all_digits _ _ c hc)
  · rw [if_neg hneg] at hc
    exact Or.inl (natDigitsAux_all_digits _ _ c hc)

theorem hexDigitCh_ne_quotes (m : Nat) (h : m < 16) :
    ¬ hexDigitCh m = qChar ∧ ¬ hexDigitCh m = apChar := by
  unfold hexDigitCh
  interval_cases m <;> exact ⟨by decide, by decide⟩

theorem escChar_no_q (d : Char) (h : ¬ d = qChar) : qChar ∉ escChar d := by
  rw [escChar, if_neg h]
  by_cases h2 : d = bsChar
  · rw [if_pos h2]; decide
  rw [if_neg h2]
  by_cases h3 : d.toNat = 8
  · rw [if_pos h3]; decide
  rw [if_neg h3]
  by_cases h4 : d.toNat = 9
  · rw [if_pos h4]; decide
  rw [if_neg h4]
  by_cases h5 : d.toNat = 10
  · rw [if_pos h5]; decide
  rw [if_neg h5]
  by_cases h6 : d.toNat = 12
  · rw [if_pos h6]; decide
  rw [if_neg h6]
  by_cases h7 : d.toNat = 13
  · rw [if_pos h7]; decide
  rw [if_neg h7]
  by_cases h8 : d.toNat < 32
  · rw [if_pos h8]
    intro hc
    simp only [List.mem_cons, List.not_mem_nil, or_false] at hc
    rcases hc with hc | hc | hc | hc | hc | hc
    · exact absurd hc (by decide)
    · exact absurd hc (by decide)
    · exact absurd hc (by decide)
    · exact absurd hc (by decide)
    · exact (hexDigitCh_ne_quotes _ (by omega)).1 hc.symm
    · exact (hexDigitCh_ne_quotes _ (Nat.mod_lt _ (by omega))).1 hc.symm
  · rw [if_neg h8]
    intro hc
    simp only [List.mem_cons, List.not_mem_nil, or_false] at hc
    exact h hc.symm

theorem escChar_no_ap (d : Char) (h : ¬ d = apChar) : apChar ∉ escChar d := by
  rw [escChar]
  by_cases h1 : d = qChar
  · rw [if_pos h1]; decide
  rw [if_neg h1]
  by_cases h2 : d = bsChar
  · rw [if_pos h2]; decide
  rw [if_neg h2]
  by_cases h3 : d.toNat = 8
  · rw [if_pos h3]; decide
  rw [if_neg h3]
  by_cases h4 : d.toNat = 9
  · rw [if_pos h4]; decide
  rw [if_neg h4]
  by_cases h5 : d.toNat = 10
  · rw [if_pos h5]; decide
  rw [if_neg h5]
  by_cases h6 : d.toNat = 12
  · rw [if_pos h6]; decide
  rw [if_neg h6]
  by_cases h7 : d.toNat = 13
  · rw [if_pos h7]; decide
  rw [if_neg h7]
  by_cases h8 : d.toNat < 32
  · rw [if_pos h8]
    intro hc
    simp only [List.mem_cons, List.not_mem_nil, or_false] at hc
    rcases hc with hc | hc | hc | hc | hc | hc
    · exact absurd hc (by decide)
    · exact absurd hc (by decide)
    · exact absurd hc (by decide)
    · exact absurd hc (by decide)
    · exact (hexDigitCh_ne_quotes _ (by omega)).2 hc.symm
    · exact (hexDigitCh_ne_quotes _ (Nat.mod_lt _ (by omega))).2 hc.symm
  · rw [if_neg h8]
    intro hc
    simp only [List.mem_cons, List.not_mem_nil, or_false] at hc
    exact h hc.symm

theorem escStr_no_q (s : List Char) (h : qChar ∉ s) : qChar ∉ escStr s := by
  induction s with
  | nil => simp [escStr]
  | cons c t ih =>
    simp only [List.mem_cons, not_or] at h
    rw [escStr]
    intro hc
    rcases List.mem_append.mp hc with hc | hc
    · exact escChar_no_q c (fun he => h.1 he.symm) hc
    · exact ih h.2 hc

theorem escStr_no_ap (s : List Char) (h : apChar ∉ s) : apChar ∉ escStr s := by
  induction s with
  | nil => simp [escStr]
  | cons c t ih =>
    simp only [List.mem_cons, not_or] at h
    rw [escStr]
    intro hc
    rcases List.mem_append.mp hc with hc | hc
    · exact escChar_no_ap c (fun he => h.1 he.symm) hc
    · exact ih h.2 hc

theorem substQuotes_append (a b : List Char) :
    substQuotes (a ++ b) = substQuotes a ++ substQuotes b := by
  simp [substQuotes]

theorem substQuotes_cons (c : Char) (t : List Char) :
    substQuotes (c :: t) = (if c = qChar then apChar else c) :: substQuotes t := rfl

mutual

theorem noQ_dumpsV (v : JValue) : hasQuoteV v = false → qChar ∉ dumpsV v := by
  intro h
  cases v with
  | null => decide
  | bool b => cases b <;> decide
  | num n =>
    intro hc
    rcases mem_intChars n qChar hc with hd | hd
    · exact absurd hd (by decide)
    · exact absurd hd (by decide)
  | str s => exact absurd h (by simp [hasQuoteV])
  | arr items =>
    cases items with
    | nil => decide
    | cons a tl =>
      intro hc
      have hdump : dumpsV (JValue.arr (.cons a tl)) =
          '[' :: (dumpsItems (.cons a tl) ++ [']']) := by simp [dumpsV]
      rw [hdump] at hc
      rcases List.mem_cons.mp hc with hc | hc
      · exact absurd hc (by decide)
      rcases List.mem_append.mp hc with hc | hc
      · exact noQ_dumpsItems (.cons a tl) (by simpa [hasQuoteV] using h) hc
      · exact absurd hc (by decide)
  | obj members =>
    cases members with
    | nil => decide
    | cons k v2 tl => exact absurd h (by simp [hasQuoteV])

theorem noQ_dumpsItems (its : JList) : hasQuoteL its = false → qChar ∉ dumpsItems its := by
  intro h
  have h1 : ∀ a tl, its = .cons a tl → hasQuoteV a = false ∧ hasQuoteL tl = false := by
    intro a tl he
    rw [he] at h
    simp only [hasQuoteL, Bool.or_eq_false_iff] at h
    exact h
  cases its with
  | nil => intro hc; cases hc
  | cons a tl =>
    obtain ⟨ha, htl⟩ := h1 a tl rfl
    cases tl with
    | nil =>
      have hd : dumpsItems (.cons a .nil) = dumpsV a := by simp [dumpsItems]
      rw [hd]
      exact noQ_dumpsV a ha
    | cons b tl2 =>
      intro hc
      have hd : dumpsItems (.cons a (.cons b tl2)) =
          dumpsV a ++ ',' :: ' ' :: dumpsItems (.cons b tl2) := rfl
      rw [hd] at hc
      rcases List.mem_append.mp hc with hc | hc
      · exact noQ_dumpsV a ha hc
      rcases List.mem_cons.mp hc with hc | hc
      · exact absurd hc (by decide)
      rcases List.mem_cons.mp hc with hc | hc
      · exact absurd hc (by decide)
      · exact noQ_dumpsItems (.cons b tl2) htl hc

end

theorem jpValue_ap (fuel : Nat) (t : List Char) : jpValue fuel (apChar :: t) = none := by
  cases fuel with
  | zero => rfl
  | succ f =>
    rw [jpValue.eq_def]
    simp +decide [skipWs_noop apChar t (by decide)]

theorem jpMembers1_ap (fuel : Nat) (t : List Char) : jpMembers1 fuel (apChar :: t) = none := by
  cases fuel with
  | zero => rfl
  | succ f =>
    rw [jpMembers1.eq_def]
    simp +decide [skipWs_noop apChar t (by decide)]

mutual

theorem jp_fails_V (v : JValue) : hasQuoteV v = true → ∀ (fuel : Nat) (rest : List Char),
    (dumpsV v).length < fuel → jpValue fuel (substQuotes (dumpsV v) ++ rest) = none := by
  intro h fuel rest hfuel
  cases v with
  | null => simp [hasQuoteV] at h
  | bool b => simp [hasQuoteV] at h
  | num n => simp [hasQuoteV] at h
  | str s =>
    have hshape : substQuotes (dumpsV (JValue.str s)) ++ rest =
        apChar :: (substQuotes (escStr s ++ [qChar]) ++ rest) := by
      show substQuotes (qChar :: (escStr s ++ [qChar])) ++ rest = _
      rw [substQuotes_cons, if_pos rfl]
      exact List.cons_append apChar _ rest
    rw [hshape, jpValue_ap]
  | arr items =>
    cases items with
    | nil => simp [hasQuoteV, hasQuoteL] at h
    | cons a tl =>
      cases fuel with
      | zero => rfl
      | succ f =>
        have hlen : (dumpsV (JValue.arr (.cons a tl))).length =
            (dumpsItems (.cons a tl)).length + 2 := by simp [dumpsV]
        obtain ⟨c, t, hct, hws, hnb, _⟩ := dumpsV_head a
        obtain ⟨X, hX⟩ : ∃ X, dumpsItems (.cons a tl) = dumpsV a ++ X := by
          cases tl
          · exact ⟨[], by simp [dumpsItems]⟩
          · exact ⟨',' :: ' ' :: dumpsItems _, rfl⟩
        have hc2 : (if c = qChar then apChar else c) = apChar ∨
            (if c = qChar then apChar else c) = c := by
          by_cases hq : c = qChar
          · exact Or.inl (if_pos hq ▸ rfl)
          · exact Or.inr (if_neg hq ▸ rfl)
        have hws2 : isJsonWs (if c = qChar then apChar else c) = false := by
          rcases hc2 with he | he <;> rw [he]
          · decide
          · exact hws
        have hnb2 : ¬ (if c = qChar then apChar else c) = ']' := by
          rcases hc2 with he | he <;> rw [he]
          · decide
          · exact hnb
        have hshape : substQuotes (dumpsV (JValue.arr (.cons a tl))) ++ rest =
            '[' :: ((if c = qChar then apChar else c) ::
              (substQuotes (t ++ X) ++ (']' :: rest))) := by
          have hd : dumpsV (JValue.arr (.cons a tl)) =
              '[' :: (dumpsItems (.cons a tl) ++ [']']) := by simp [dumpsV]
          rw [hd, substQuotes_cons, substQuotes_append, hX, hct]
          simp +decide [substQuotes_cons, substQuotes_append, substQuotes]
        have hback : (if c = qChar then apChar else c) ::
            (substQuotes (t ++ X) ++ (']' :: rest)) =
            substQuotes (dumpsItems (.cons a tl)) ++ ']' :: rest := by
          rw [hX, hct]
          simp [substQuotes_append, substQuotes_cons]
        rw [hshape, jp_arr_go f _ _ hws2 hnb2, hback,
          jp_fails_items (.cons a tl) (by simpa [hasQuoteV] using h) f rest (by omega)]
        rfl
  | obj members =>
    cases members with
    | nil => simp [hasQuoteV] at h
    | cons k v2 tl =>
      cases fuel with
      | zero => rfl
      | succ f =>
        obtain ⟨Y, hY⟩ : ∃ Y, dumpsMembers (.cons k v2 tl) = qChar :: Y := by
          cases tl
          · exact ⟨_, rfl⟩
          · exact ⟨_, rfl⟩
        have hshape : substQuotes (dumpsV (JValue.obj (.cons k v2 tl))) ++ rest =
            '{' :: (apChar :: (substQuotes Y ++ ('}' :: rest))) := by
          have hd : dumpsV (JValue.obj (.cons k v2 tl)) =
              '{' :: (dumpsMembers (.cons k v2 tl) ++ ['}']) := by simp [dumpsV]
          rw [hd, substQuotes_cons, substQuotes_append, hY, substQuotes_cons]
          simp +decide [substQuotes]
        rw [hshape, jp_obj_go f apChar _ (by decide) (by decide), jpMembers1_ap]
        rfl

theorem jp_fails_items (its : JList) : hasQuoteL its = true → ∀ (fuel : Nat) (rest : List Char),
    (dumpsItems its).length + 1 < fuel →
    jpItems1 fuel (substQuotes (dumpsItems its) ++ ']' :: rest) = none := by
  intro h fuel rest hfuel
  cases fuel with
  | zero => rfl
  | succ f =>
    cases its with
    | nil => simp [hasQuoteL] at h
    | cons a tl =>
      cases tl with
      | nil =>
        have ha : hasQuoteV a = true := by simpa [hasQuoteL] using h
        have hl : dumpsItems (.cons a .nil) = dumpsV a := by simp [dumpsItems]
        rw [hl] at hfuel ⊢
        rw [jpItems1.eq_def]
        simp only [jp_fails_V a ha f (']' :: rest) (by omega)]
      | cons b tl2 =>
        have hl : dumpsItems (.cons a (.cons b tl2)) =
            dumpsV a ++ ',' :: ' ' :: dumpsItems (.cons b tl2) := rfl
        have hlen : (dumpsItems (.cons a (.cons b tl2))).length =
            (dumpsV a).length + 2 + (dumpsItems (.cons b tl2)).length := by
          rw [hl]
          simp
          omega
        have hshape : substQuotes (dumpsItems (.cons a (.cons b tl2))) ++ ']' :: rest =
            substQuotes (dumpsV a) ++
              (',' :: ' ' :: (substQuotes (dumpsItems (.cons b tl2)) ++ ']' :: rest)) := by
          rw [hl, substQuotes_append, substQuotes_cons, substQuotes_cons]
          simp +decide
        rw [hshape, jpItems1.eq_def]
        by_cases ha : hasQuoteV a = true
        · simp only [jp_fails_V a ha f _ (by omega)]
        · rw [Bool.not_eq_true] at ha
          have hsub : substQuotes (dumpsV a) = dumpsV a :=
            substQuotes_eq_of_not_mem _ (noQ_dumpsV a ha)
          have htl : hasQuoteL (.cons b tl2) = true := by
            have hh : (hasQuoteV a || hasQuoteL (.cons b tl2)) = true := h
            rw [ha] at hh
            simpa using hh
          rw [hsub]
          simp +decide only [jp_roundtrip_V a f _ (by omega)
            (restStop_close ',' _ (Or.inr (Or.inr rfl))), skipWs_noop ',' _ (by decide)]
          rw [jpItems1_cons_ws f ' ' _ (by decide),
            jp_fails_items (.cons b tl2) htl f rest (by omega)]
          rfl

end

theorem noQ_intChars (n : Int) : qChar ∉ intChars n := by
  intro hc
  rcases mem_intChars n qChar hc with hd | hd
  · exact absurd hd (by decide)
  · exact absurd hd (by decide)

theorem noAp_intChars (n : Int) : apChar ∉ intChars n := by
  intro hc
  rcases mem_intChars n apChar hc with hd | hd
  · exact absurd hd (by decide)
  · exact absurd hd (by decide)

theorem litStrBody_escStr (s rest : List Char) (hq : qChar ∉ s) (hap : apChar ∉ s) :
    litStrBody apChar (escStr s ++ apChar :: rest) = some (s, rest) := by
  induction s with
  | nil =>
    show litStrBody apChar ([] ++ apChar :: rest) = _
    rw [List.nil_append, litStrBody.eq_def]
    simp +decide
  | cons c t ih =>
    simp only [List.mem_cons, not_or] at hq hap
    have hqc : ¬ c = qChar := fun he => hq.1 he.symm
    have hapc : ¬ c = apChar := fun he => hap.1 he.symm
    have iht := ih hq.2 hap.2
    show litStrBody apChar ((escChar c ++ escStr t) ++ apChar :: rest) = _
    rw [List.append_assoc]
    by_cases hbs : c = bsChar
    · subst hbs
      rw [show escChar bsChar = [bsChar, bsChar] from by simp +decide [escChar],
        litStrBody.eq_def]
      simp +decide [iht]
    · by_cases h8 : c.toNat = 8
      · have hc : Char.ofNat 8 = c := by rw [← h8, Char.ofNat_toNat]
        rw [show escChar c = [bsChar, 'b'] from by simp [escChar, hqc, hbs, h8],
          litStrBody.eq_def]
        simp +decide [iht]
        exact hc
      · by_cases h9 : c.toNat = 9
        · have hc : Char.ofNat 9 = c := by rw [← h9, Char.ofNat_toNat]
          rw [show escChar c = [bsChar, 't'] from by simp [escChar, hqc, hbs, h8, h9],
            litStrBody.eq_def]
          simp +decide [iht]
          exact hc
        · by_cases h10 : c.toNat = 10
          · have hc : nlChar = c := by
              show Char.ofNat 10 = c
              rw [← h10, Char.ofNat_toNat]
            rw [show escChar c = [bsChar, 'n'] from by simp [escChar, hqc, hbs, h8, h9, h10],
              litStrBody.eq_def]
            simp +decide [iht]
            exact hc
          · by_cases h12 : c.toNat = 12
            · have hc : Char.ofNat 12 = c := by rw [← h12, Char.ofNat_toNat]
              rw [show escChar c = [bsChar, 'f'] from by
                simp [escChar, hqc, hbs, h8, h9, h10, h12], litStrBody.eq_def]
              simp +decide [iht]
              exact hc
            · by_cases h13 : c.toNat = 13
              · have hc : Char.ofNat 13 = c := by rw [← h13, Char.ofNat_toNat]
                rw [show escChar c = [bsChar, 'r'] from by
                  simp [escChar, hqc, hbs, h8, h9, h10, h12, h13], litStrBody.eq_def]
                simp +decide [iht]
                exact hc
              · by_cases hlt : c.toNat < 32
                · have hdiv : c.toNat / 16 < 16 := by omega
                  have hmod : c.toNat % 16 < 16 := by omega
                  have hc : Char.ofNat (16 * (c.toNat / 16) + c.toNat % 16) = c := by
                    rw [show 16 * (c.toNat / 16) + c.toNat % 16 = c.toNat from by
                      omega, Char.ofNat_toNat]
                  rw [show escChar c = [bsChar, 'u', '0', '0', hexDigitCh (c.toNat / 16),
                      hexDigitCh (c.toNat % 16)] from by
                    simp [escChar, hqc, hbs, h8, h9, h10, h12, h13, hlt], litStrBody.eq_def]
                  simp +decide [iht, hexVal_hexDigitCh _ hdiv, hexVal_hexDigitCh _ hmod,
                    (show hexVal '0' = some 0 from rfl)]
                  exact hc
                · have hnl : ¬ c = nlChar := fun he => hlt (by rw [he]; decide)
                  have h13b : ¬ c.toNat = 13 := h13
                  rw [show escChar c = [c] from by
                    simp [escChar, hqc, hbs, h8, h9, h10, h12, h13, hlt], litStrBody.eq_def]
                  simp +decide [iht, hqc, hapc, hbs, hnl, h13b]

theorem lit_str (f : Nat) (s rest : List Char) (hq : qChar ∉ s) (hap : apChar ∉ s) :
    litValue (f + 1) (apChar :: (escStr s ++ apChar :: rest)) = some (.str s, rest) := by
  rw [litValue.eq_def]
  simp +decide [skipWs_noop apChar _ (by decide), litStrBody_escStr s rest hq hap]

theorem lit_arr_nil (f : Nat) (rest : List Char) :
    litValue (f + 1) ('[' :: ']' :: rest) = some (.arr .nil, rest) := by
  simp +decide [litValue, skipWs, dropLeading]

theorem lit_obj_nil (f : Nat) (rest : List Char) :
    litValue (f + 1) ('{' :: '}' :: rest) = some (.obj .nil, rest) := by
  simp +decide [litValue, skipWs, dropLeading]

theorem lit_arr_go (f : Nat) (c : Char) (rest' : List Char)
    (hws : isJsonWs c = false) (hnb : ¬ c = ']') :
    litValue (f + 1) ('[' :: c :: rest') =
      (litItems1 f (c :: rest')).map (fun p => (JValue.arr p.1, p.2)) := by
  rw [litValue.eq_def]
  simp +decide only [skipWs_noop '[' _ (by decide), skipWs_noop c _ hws]
  simp [hnb]

theorem lit_obj_go (f : Nat) (c : Char) (rest' : List Char)
    (hws : isJsonWs c = false) (hnb : ¬ c = '}') :
    litValue (f + 1) ('{' :: c :: rest') =
      (litMembers1 f (c :: rest')).map (fun p => (JValue.obj p.1, p.2)) := by
  rw [litValue.eq_def]
  simp +decide only [skipWs_noop '{' _ (by decide), skipWs_noop c _ hws]
  simp [hnb]

theorem strOk_str_dest (s : List Char) (h : strOkV (.str s) = true) :
    qChar ∉ s ∧ apChar ∉ s := by
  simp [strOkV] at h
  exact h

theorem strOkL_cons_dest (a : JValue) (tl : JList) (h : strOkL (.cons a tl) = true) :
    strOkV a = true ∧ strOkL tl = true := by
  simp [strOkL] at h
  exact h

theorem strOkO_cons_dest (k : List Char) (v : JValue) (tl : JObj)
    (h : strOkO (.cons k v tl) = true) :
    (qChar ∉ k ∧ apChar ∉ k) ∧ strOkV v = true ∧ strOkO tl = true := by
  simp [strOkO] at h
  exact ⟨h.1.1, h.1.2, h.2⟩

theorem hasNBL_cons_dest (a : JValue) (tl : JList) (h : hasNBL (.cons a tl) = false) :
    hasNBV a = false ∧ hasNBL tl = false := by
  simp [hasNBL] at h
  exact h

theorem hasNBO_cons_dest (k : List Char) (v : JValue) (tl : JObj)
    (h : hasNBO (.cons k v tl) = false) :
    hasNBV v = false ∧ hasNBO tl = false := by
  simp [hasNBO] at h
  exact h

mutual

theorem lit_roundtrip_V (v : JValue) : strOkV v = true → hasNBV v = false →
    ∀ (fuel : Nat) (rest : List Char), (dumpsV v).length < fuel → restStop rest = true →
    litValue fuel (substQuotes (dumpsV v) ++ rest) = some (v, rest) := by
  intro hok hnb fuel rest hfuel hrest
  cases fuel with
  | zero => exact absurd hfuel (by omega)
  | succ f =>
    cases v with
    | null => simp [hasNBV] at hnb
    | bool b => simp [hasNBV] at hnb
    | num n =>
      have hsub : substQuotes (dumpsV (JValue.num n)) = dumpsV (JValue.num n) :=
        substQuotes_eq_of_not_mem _ (noQ_intChars n)
      rw [hsub]
      exact lit_num f n rest hrest
    | str s =>
      obtain ⟨hq, hap⟩ := strOk_str_dest s hok
      have hshape : substQuotes (dumpsV (JValue.str s)) ++ rest =
          apChar :: (escStr s ++ apChar :: rest) := by
        show substQuotes (qChar :: (escStr s ++ [qChar])) ++ rest = _
        rw [substQuotes_cons, if_pos rfl, substQuotes_append,
          substQuotes_eq_of_not_mem _ (escStr_no_q s hq)]
        simp +decide [substQuotes]
      rw [hshape]
      exact lit_str f s rest hq hap
    | arr items =>
      cases items with
      | nil =>
        have hsub : substQuotes (dumpsV (JValue.arr .nil)) ++ rest = '[' :: ']' :: rest := rfl
        rw [hsub]
        exact lit_arr_nil f rest
      | cons hd tl =>
        have hlen : (dumpsV (JValue.arr (.cons hd tl))).length =
            (dumpsItems (.cons hd tl)).length + 2 := by simp [dumpsV]
        obtain ⟨c, t, hct, hws, hnbc, _⟩ := dumpsV_head hd
        obtain ⟨X, hX⟩ : ∃ X, dumpsItems (.cons hd tl) = dumpsV hd ++ X := by
          cases tl
          · exact ⟨[], by simp [dumpsItems]⟩
          · exact ⟨',' :: ' ' :: dumpsItems _, rfl⟩
        have hc2 : (if c = qChar then apChar else c) = apChar ∨
            (if c = qChar then apChar else c) = c := by
          by_cases hq : c = qChar
          · exact Or.inl (if_pos hq ▸ rfl)
          · exact Or.inr (if_neg hq ▸ rfl)
        have hws2 : isJsonWs (if c = qChar then apChar else c) = false := by
          rcases hc2 with he | he <;> rw [he]
          · decide
          · exact hws
        have hnb2 : ¬ (if c = qChar then apChar else c) = ']' := by
          rcases hc2 with he | he <;> rw [he]
          · decide
          · exact hnbc
        have hshape : substQuotes (dumpsV (JValue.arr (.cons hd tl))) ++ rest =
            '[' :: ((if c = qChar then apChar else c) ::
              (substQuotes (t ++ X) ++ (']' :: rest))) := by
          have hd2 : dumpsV (JValue.arr (.cons hd tl)) =
              '[' :: (dumpsItems (.cons hd tl) ++ [']']) := by simp [dumpsV]
          rw [hd2, substQuotes_cons, substQuotes_append, hX, hct]
          simp +decide [substQuotes_cons, substQuotes_append, substQuotes]
        have hback : (if c = qChar then apChar else c) ::
            (substQuotes (t ++ X) ++ (']' :: rest)) =
            substQuotes (dumpsItems (.cons hd tl)) ++ ']' :: rest := by
          rw [hX, hct]
          simp [substQuotes_append, substQuotes_cons]
        rw [hshape, lit_arr_go f _ _ hws2 hnb2, hback,
          lit_roundtrip_items (.cons hd tl) (by simpa [strOkV] using hok)
            (by simpa [hasNBV] using hnb) f rest (by intro hc; cases hc) (by omega)]
        rfl
    | obj members =>
      cases members with
      | nil =>
        have hsub : substQuotes (dumpsV (JValue.obj .nil)) ++ rest = '{' :: '}' :: rest := rfl
        rw [hsub]
        exact lit_obj_nil f rest
      | cons k val tl =>
        have hlen : (dumpsV (JValue.obj (.cons k val tl))).length =
            (dumpsMembers (.cons k val tl)).length + 2 := by simp [dumpsV]
        obtain ⟨Y, hY⟩ : ∃ Y, dumpsMembers (.cons k val tl) = qChar :: Y := by
          cases tl
          · exact ⟨_, rfl⟩
          · exact ⟨_, rfl⟩
        have hshape : substQuotes (dumpsV (JValue.obj (.cons k val tl))) ++ rest =
            '{' :: (apChar :: (substQuotes Y ++ ('}' :: rest))) := by
          have hd2 : dumpsV (JValue.obj (.cons k val tl)) =
              '{' :: (dumpsMembers (.cons k val tl) ++ ['}']) := by simp [dumpsV]
          rw [hd2, substQuotes_cons, substQuotes_append, hY, substQuotes_cons]
          simp +decide [substQuotes]
        have hback : apChar :: (substQuotes Y ++ ('}' :: rest)) =
            substQuotes (dumpsMembers (.cons k val tl)) ++ '}' :: rest := by
          rw [hY, substQuotes_cons]
          simp +decide
        rw [hshape, lit_obj_go f apChar _ (by decide) (by decide), hback,
          lit_roundtrip_members (.cons k val tl) (by simpa [strOkV] using hok)
            (by simpa [hasNBV] using hnb) f rest (by intro hc; cases hc) (by omega)]
        rfl

theorem lit_roundtrip_items (its : JList) : strOkL its = true → hasNBL its = false →
    ∀ (fuel : Nat) (rest : List Char), its ≠ .nil → (dumpsItems its).length + 1 < fuel →
    litItems1 fuel (substQuotes (dumpsItems its) ++ ']' :: rest) = some (its, rest) := by
  intro hok hnb fuel rest hne hfuel
  cases fuel with
  | zero => exact absurd hfuel (by omega)
  | succ f =>
    cases its with
    | nil => exact absurd rfl hne
    | cons hd tl =>
      obtain ⟨hokh, hokt⟩ := strOkL_cons_dest hd tl hok
      obtain ⟨hnbh, hnbt⟩ := hasNBL_cons_dest hd tl hnb
      cases tl with
      | nil =>
        have hl : dumpsItems (.cons hd .nil) = dumpsV hd := by simp [dumpsItems]
        rw [hl] at hfuel ⊢
        rw [litItems1.eq_def]
        simp +decide only [lit_roundtrip_V hd hokh hnbh f (']' :: rest) (by omega)
          (restStop_close ']' rest (Or.inl rfl)), skipWs_noop ']' rest (by decide)]
      | cons b tl2 =>
        have hl : dumpsItems (.cons hd (.cons b tl2)) =
            dumpsV hd ++ ',' :: ' ' :: dumpsItems (.cons b tl2) := rfl
        have hlen : (dumpsItems (.cons hd (.cons b tl2))).length =
            (dumpsV hd).length + 2 + (dumpsItems (.cons b tl2)).length := by
          rw [hl]
          simp
          omega
        have hpos := dumpsV_length_pos hd
        have hshape : substQuotes (dumpsItems (.cons hd (.cons b tl2))) ++ ']' :: rest =
            substQuotes (dumpsV hd) ++
              (',' :: ' ' :: (substQuotes (dumpsItems (.cons b tl2)) ++ ']' :: rest)) := by
          rw [hl, substQuotes_append, substQuotes_cons, substQuotes_cons]
          simp +decide
        rw [hshape, litItems1.eq_def]
        simp +decide only [lit_roundtrip_V hd hokh hnbh f _ (by omega)
          (restStop_close ',' _ (Or.inr (Or.inr rfl))), skipWs_noop ',' _ (by decide)]
        rw [litItems1_cons_ws f ' ' _ (by decide),
          lit_roundtrip_items (.cons b tl2) hokt hnbt f rest (by intro hc; cases hc) (by omega)]
        rfl

theorem lit_roundtrip_members (ms : JObj) : strOkO ms = true → hasNBO ms = false →
    ∀ (fuel : Nat) (rest : List Char), ms ≠ .nil → (dumpsMembers ms).length + 1 < fuel →
    litMembers1 fuel (substQuotes (dumpsMembers ms) ++ '}' :: rest) = some (ms, rest) := by
  intro hok hnb fuel rest hne hfuel
  cases fuel with
  | zero => exact absurd hfuel (by omega)
  | succ f =>
    cases ms with
    | nil => exact absurd rfl hne
    | cons k val tl =>
      obtain ⟨⟨hqk, hapk⟩, hokv, hokt⟩ := strOkO_cons_dest k val tl hok
      obtain ⟨hnbv, hnbt⟩ := hasNBO_cons_dest k val tl hnb
      have hesc : substQuotes (escStr k) = escStr k :=
        substQuotes_eq_of_not_mem _ (escStr_no_q k hqk)
      have hposv := dumpsV_length_pos val
      cases tl with
      | nil =>
        have hl : dumpsMembers (.cons k val .nil) =
            qChar :: escStr k ++ qChar :: ':' :: ' ' :: dumpsV val := rfl
        have hlen : (dumpsMembers (.cons k val .nil)).length =
            (escStr k).length + (dumpsV val).length + 4 := by
          rw [hl]
          simp
          omega
        cases f with
        | zero => exact absurd hfuel (by omega)
        | succ f2 =>
          have hshape : substQuotes (dumpsMembers (.cons k val .nil)) ++ '}' :: rest =
              apChar :: (escStr k ++ apChar ::
                (':' :: (' ' :: (substQuotes (dumpsV val) ++ '}' :: rest)))) := by
            rw [hl]
            simp +decide [substQuotes_append, substQuotes_cons, hesc]
          rw [hshape, litMembers1.eq_def]
          simp +decide only [lit_str f2 k
              (':' :: (' ' :: (substQuotes (dumpsV val) ++ '}' :: rest))) hqk hapk,
            skipWs_noop ':' _ (by decide), litValue_cons_ws (f2 + 1) ' ' _ (by decide),
            lit_roundtrip_V val hokv hnbv (f2 + 1) ('}' :: rest) (by omega)
              (restStop_close '}' rest (Or.inr (Or.inl rfl))),
            skipWs_noop '}' rest (by decide)]
      | cons k2 v2 tl2 =>
        have hl : dumpsMembers (.cons k val (.cons k2 v2 tl2)) =
            qChar :: escStr k ++ qChar :: ':' :: ' ' :: dumpsV val ++
              ',' :: ' ' :: dumpsMembers (.cons k2 v2 tl2) := rfl
        have hlen : (dumpsMembers (.cons k val (.cons k2 v2 tl2))).length =
            (escStr k).length + (dumpsV val).length +
              (dumpsMembers (.cons k2 v2 tl2)).length + 6 := by
          rw [hl]
          simp
          omega
        cases f with
        | zero => exact absurd hfuel (by omega)
        | succ f2 =>
          have hshape : substQuotes (dumpsMembers (.cons k val (.cons k2 v2 tl2))) ++
              '}' :: rest =
              apChar :: (escStr k ++ apChar :: (':' :: (' ' :: (substQuotes (dumpsV val) ++
                ',' :: (' ' :: (substQuotes (dumpsMembers (.cons k2 v2 tl2)) ++
                  '}' :: rest)))))) := by
            rw [hl]
            simp +decide [substQuotes_append, substQuotes_cons, hesc]
          rw [hshape, litMembers1.eq_def]
          simp +decide only [lit_str f2 k
              (':' :: (' ' :: (substQuotes (dumpsV val) ++
                ',' :: (' ' :: (substQuotes (dumpsMembers (.cons k2 v2 tl2)) ++
                  '}' :: rest))))) hqk hapk,
            skipWs_noop ':' _ (by decide), litValue_cons_ws (f2 + 1) ' ' _ (by decide),
            lit_roundtrip_V val hokv hnbv (f2 + 1) _ (by omega)
              (restStop_close ',' _ (Or.inr (Or.inr rfl))),
            skipWs_noop ',' _ (by decide)]
          rw [litMembers1_cons_ws (f2 + 1) ' ' _ (by decide),
            lit_roundtrip_members (.cons k2 v2 tl2) hokt hnbt (f2 + 1) rest
              (by intro hc; cases hc) (by omega)]
          rfl

end

theorem litValue_nfail (fuel : Nat) (t : List Char) : litValue fuel ('n' :: t) = none := by
  cases fuel with
  | zero => rfl
  | succ f =>
    rw [litValue.eq_def]
    simp +decide [skipWs_noop 'n' t (by decide)]

theorem litValue_tfail (fuel : Nat) (t : List Char) : litValue fuel ('t' :: t) = none := by
  cases fuel with
  | zero => rfl
  | succ f =>
    rw [litValue.eq_def]
    simp +decide [skipWs_noop 't' t (by decide)]

theorem litValue_ffail (fuel : Nat) (t : List Char) : litValue fuel ('f' :: t) = none := by
  cases fuel with
  | zero => rfl
  | succ f =>
    rw [litValue.eq_def]
    simp +decide [skipWs_noop 'f' t (by decide)]

mutual

theorem noAp_dumpsV (v : JValue) : strOkV v = true → apChar ∉ dumpsV v := by
  intro h
  cases v with
  | null => decide
  | bool b => cases b <;> decide
  | num n => exact noAp_intChars n
  | str s =>
    obtain ⟨hq, hap⟩ := strOk_str_dest s h
    intro hc
    have hd : dumpsV (JValue.str s) = (qChar :: escStr s) ++ [qChar] := rfl
    rw [hd] at hc
    rcases List.mem_append.mp hc with hc | hc
    · rcases List.mem_cons.mp hc with hc | hc
      · exact absurd hc (by decide)
      · exact escStr_no_ap s hap hc
    · exact absurd hc (by decide)
  | arr items =>
    cases items with
    | nil => decide
    | cons a tl =>
      intro hc
      have hd : dumpsV (JValue.arr (.cons a tl)) =
          '[' :: (dumpsItems (.cons a tl) ++ [']']) := by simp [dumpsV]
      rw [hd] at hc
      rcases List.mem_cons.mp hc with hc | hc
      · exact absurd hc (by decide)
      rcases List.mem_append.mp hc with hc | hc
      · exact noAp_dumpsItems (.cons a tl) (by simpa [strOkV] using h) hc
      · exact absurd hc (by decide)
  | obj members =>
    cases members with
    | nil => decide
    | cons k v2 tl =>
      intro hc
      have hd : dumpsV (JValue.obj (.cons k v2 tl)) =
          '{' :: (dumpsMembers (.cons k v2 tl) ++ ['}']) := by simp [dumpsV]
      rw [hd] at hc
      rcases List.mem_cons.mp hc with hc | hc
      · exact absurd hc (by decide)
      rcases List.mem_append.mp hc with hc | hc
      · exact noAp_dumpsMembers (.cons k v2 tl) (by simpa [strOkV] using h) hc
      · exact absurd hc (by decide)

theorem noAp_dumpsItems (its : JList) : strOkL its = true → apChar ∉ dumpsItems its := by
  intro h
  cases its with
  | nil => intro hc; cases hc
  | cons a tl =>
    obtain ⟨ha, htl⟩ := strOkL_cons_dest a tl h
    cases tl with
    | nil =>
      have hd : dumpsItems (.cons a .nil) = dumpsV a := by simp [dumpsItems]
      rw [hd]
      exact noAp_dumpsV a ha
    | cons b tl2 =>
      intro hc
      have hd : dumpsItems (.cons a (.cons b tl2)) =
          dumpsV a ++ ',' :: ' ' :: dumpsItems (.cons b tl2) := rfl
      rw [hd] at hc
      rcases List.mem_append.mp hc with hc | hc
      · exact noAp_dumpsV a ha hc
      rcases List.mem_cons.mp hc with hc | hc
      · exact absurd hc (by decide)
      rcases List.mem_cons.mp hc with hc | hc
      · exact absurd hc (by decide)
      · exact noAp_dumpsItems (.cons b tl2) htl hc

theorem noAp_dumpsMembers (ms : JObj) : strOkO ms = true → apChar ∉ dumpsMembers ms := by
  intro h
  cases ms with
  | nil => intro hc; cases hc
  | cons k val tl =>
    obtain ⟨⟨hqk, hapk⟩, hokv, hokt⟩ := strOkO_cons_dest k val tl h
    cases tl with
    | nil =>
      intro hc
      have hd : dumpsMembers (.cons k val .nil) =
          (qChar :: escStr k) ++ (qChar :: ':' :: ' ' :: dumpsV val) := rfl
      rw [hd] at hc
      rcases List.mem_append.mp hc with hc | hc
      · rcases List.mem_cons.mp hc with hc | hc
        · exact absurd hc (by decide)
        · exact escStr_no_ap k hapk hc
      rcases List.mem_cons.mp hc with hc | hc
      · exact absurd hc (by decide)
      rcases List.mem_cons.mp hc with hc | hc
      · exact absurd hc (by decide)
      rcases List.mem_cons.mp hc with hc | hc
      · exact absurd hc (by decide)
      · exact noAp_dumpsV val hokv hc
    | cons k2 v2 tl2 =>
      intro hc
      have hd : dumpsMembers (.cons k val (.cons k2 v2 tl2)) =
          ((qChar :: escStr k) ++ (qChar :: ':' :: ' ' :: dumpsV val)) ++
            (',' :: ' ' :: dumpsMembers (.cons k2 v2 tl2)) := rfl
      rw [hd] at hc
      rcases List.mem_append.mp hc with hc | hc
      · rcases List.mem_append.mp hc with hc | hc
        · rcases List.mem_cons.mp hc with hc | hc
          · exact absurd hc (by decide)
          · exact escStr_no_ap k hapk hc
        rcases List.mem_cons.mp hc with hc | hc
        · exact absurd hc (by decide)
        rcases List.mem_cons.mp hc with hc | hc
        · exact absurd hc (by decide)
        rcases List.mem_cons.mp hc with hc | hc
        · exact absurd hc (by decide)
        · exact noAp_dumpsV val hokv hc
      rcases List.mem_cons.mp hc with hc | hc
      · exact absurd hc (by decide)
      rcases List.mem_cons.mp hc with hc | hc
      · exact absurd hc (by decide)
      · exact noAp_dumpsMembers (.cons k2 v2 tl2) hokt hc

end

mutual

theorem lit_fails_V (v : JValue) : strOkV v = true → hasNBV v = true →
    ∀ (fuel : Nat) (rest : List Char), (dumpsV v).length < fuel →
    litValue fuel (substQuotes (dumpsV v) ++ rest) = none := by
  intro hok hnb fuel rest hfuel
  cases v with
  | null =>
    have hsub : substQuotes (dumpsV JValue.null) ++ rest = 'n' :: ('u' :: 'l' :: 'l' :: rest) := by
      show substQuotes ['n', 'u', 'l', 'l'] ++ rest = _
      simp +decide [substQuotes]
    rw [hsub, litValue_nfail]
  | bool b =>
    cases b
    · have hsub : substQuotes (dumpsV (JValue.bool false)) ++ rest =
          'f' :: ('a' :: 'l' :: 's' :: 'e' :: rest) := by
        show substQuotes ['f', 'a', 'l', 's', 'e'] ++ rest = _
        simp +decide [substQuotes]
      rw [hsub, litValue_ffail]
    · have hsub : substQuotes (dumpsV (JValue.bool true)) ++ rest =
          't' :: ('r' :: 'u' :: 'e' :: rest) := by
        show substQuotes ['t', 'r', 'u', 'e'] ++ rest = _
        simp +decide [substQuotes]
      rw [hsub, litValue_tfail]
  | num n => simp [hasNBV] at hnb
  | str s => simp [hasNBV] at hnb
  | arr items =>
    cases items with
    | nil => simp [hasNBV, hasNBL] at hnb
    | cons hd tl =>
      cases fuel with
      | zero => rfl
      | succ f =>
        have hlen : (dumpsV (JValue.arr (.cons hd tl))).length =
            (dumpsItems (.cons hd tl)).length + 2 := by simp [dumpsV]
        obtain ⟨c, t, hct, hws, hnbc, _⟩ := dumpsV_head hd
        obtain ⟨X, hX⟩ : ∃ X, dumpsItems (.cons hd tl) = dumpsV hd ++ X := by
          cases tl
          · exact ⟨[], by simp [dumpsItems]⟩
          · exact ⟨',' :: ' ' :: dumpsItems _, rfl⟩
        have hc2 : (if c = qChar then apChar else c) = apChar ∨
            (if c = qChar then apChar else c) = c := by
          by_cases hq : c = qChar
          · exact Or.inl (if_pos hq ▸ rfl)
          · exact Or.inr (if_neg hq ▸ rfl)
        have hws2 : isJsonWs (if c = qChar then apChar else c) = false := by
          rcases hc2 with he | he <;> rw [he]
          · decide
          · exact hws
        have hnb2 : ¬ (if c = qChar then apChar else c) = ']' := by
          rcases hc2 with he | he <;> rw [he]
          · decide
          · exact hnbc
        have hshape : substQuotes (dumpsV (JValue.arr (.cons hd tl))) ++ rest =
            '[' :: ((if c = qChar then apChar else c) ::
              (substQuotes (t ++ X) ++ (']' :: rest))) := by
          have hd2 : dumpsV (JValue.arr (.cons hd tl)) =
              '[' :: (dumpsItems (.cons hd tl) ++ [']']) := by simp [dumpsV]
          rw [hd2, substQuotes_cons, substQuotes_append, hX, hct]
          simp +decide [substQuotes_cons, substQuotes_append, substQuotes]
        have hback : (if c = qChar then apChar else c) ::
            (substQuotes (t ++ X) ++ (']' :: rest)) =
            substQuotes (dumpsItems (.cons hd tl)) ++ ']' :: rest := by
          rw [hX, hct]
          simp [substQuotes_append, substQuotes_cons]
        rw [hshape, lit_arr_go f _ _ hws2 hnb2, hback,
          lit_fails_items (.cons hd tl) (by simpa [strOkV] using hok)
            (by simpa [hasNBV] using hnb) f rest (by omega)]
        rfl
  | obj members =>
    cases members with
    | nil => simp [hasNBV, hasNBO] at hnb
    | cons k val tl =>
      cases fuel with
      | zero => rfl
      | succ f =>
        have hlen : (dumpsV (JValue.obj (.cons k val tl))).length =
            (dumpsMembers (.cons k val tl)).length + 2 := by simp [dumpsV]
        obtain ⟨Y, hY⟩ : ∃ Y, dumpsMembers (.cons k val tl) = qChar :: Y := by
          cases tl
          · exact ⟨_, rfl⟩
          · exact ⟨_, rfl⟩
        have hshape : substQuotes (dumpsV (JValue.obj (.cons k val tl))) ++ rest =
            '{' :: (apChar :: (substQuotes Y ++ ('}' :: rest))) := by
          have hd2 : dumpsV (JValue.obj (.cons k val tl)) =
              '{' :: (dumpsMembers (.cons k val tl) ++ ['}']) := by simp [dumpsV]
          rw [hd2, substQuotes_cons, substQuotes_append, hY, substQuotes_cons]
          simp +decide [substQuotes]
        have hback : apChar :: (substQuotes Y ++ ('}' :: rest)) =
            substQuotes (dumpsMembers (.cons k val tl)) ++ '}' :: rest := by
          rw [hY, substQuotes_cons]
          simp +decide
        rw [hshape, lit_obj_go f apChar _ (by decide) (by decide), hback,
          lit_fails_members (.cons k val tl) (by simpa [strOkV] using hok)
            (by simpa [hasNBV] using hnb) f rest (by omega)]
        rfl

theorem lit_fails_items (its : JList) : strOkL its = true → hasNBL its = true →
    ∀ (fuel : Nat) (rest : List Char), (dumpsItems its).length + 1 < fuel →
    litItems1 fuel (substQuotes (dumpsItems its) ++ ']' :: rest) = none := by
  intro hok hnb fuel rest hfuel
  cases fuel with
  | zero => rfl
  | succ f =>
    cases its with
    | nil => simp [hasNBL] at hnb
    | cons hd tl =>
      obtain ⟨hokh, hokt⟩ := strOkL_cons_dest hd tl hok
      cases tl with
      | nil =>
        have hnbh : hasNBV hd = true := by simpa [hasNBL] using hnb
        have hl : dumpsItems (.cons hd .nil) = dumpsV hd := by simp [dumpsItems]
        rw [hl] at hfuel ⊢
        rw [litItems1.eq_def]
        simp only [lit_fails_V hd hokh hnbh f (']' :: rest) (by omega)]
      | cons b tl2 =>
        have hl : dumpsItems (.cons hd (.cons b tl2)) =
            dumpsV hd ++ ',' :: ' ' :: dumpsItems (.cons b tl2) := rfl
        have hlen : (dumpsItems (.cons hd (.cons b tl2))).length =
            (dumpsV hd).length + 2 + (dumpsItems (.cons b tl2)).length := by
          rw [hl]
          simp
          omega
        have hpos := dumpsV_length_pos hd
        have hshape : substQuotes (dumpsItems (.cons hd (.cons b tl2))) ++ ']' :: rest =
            substQuotes (dumpsV hd) ++
              (',' :: ' ' :: (substQuotes (dumpsItems (.cons b tl2)) ++ ']' :: rest)) := by
          rw [hl, substQuotes_append, substQuotes_cons, substQuotes_cons]
          simp +decide
        rw [hshape, litItems1.eq_def]
        by_cases hnbh : hasNBV hd = true
        · simp only [lit_fails_V hd hokh hnbh f _ (by omega)]
        · rw [Bool.not_eq_true] at hnbh
          have htl : hasNBL (.cons b tl2) = true := by
            have hh : (hasNBV hd || hasNBL (.cons b tl2)) = true := hnb
            rw [hnbh] at hh
            simpa using hh
          simp +decide only [lit_roundtrip_V hd hokh hnbh f _ (by omega)
            (restStop_close ',' _ (Or.inr (Or.inr rfl))), skipWs_noop ',' _ (by decide)]
          rw [litItems1_cons_ws f ' ' _ (by decide),
            lit_fails_items (.cons b tl2) hokt htl f rest (by omega)]
          rfl

theorem lit_fails_members (ms : JObj) : strOkO ms = true → hasNBO ms = true →
    ∀ (fuel : Nat) (rest : List Char), (dumpsMembers ms).length + 1 < fuel →
    litMembers1 fuel (substQuotes (dumpsMembers ms) ++ '}' :: rest) = none := by
  intro hok hnb fuel rest hfuel
  cases fuel with
  | zero => rfl
  | succ f =>
    cases ms with
    | nil => simp [hasNBO] at hnb
    | cons k val tl =>
      obtain ⟨⟨hqk, hapk⟩, hokv, hokt⟩ := strOkO_cons_dest k val tl hok
      have hesc : substQuotes (escStr k) = escStr k :=
        substQuotes_eq_of_not_mem _ (escStr_no_q k hqk)
      have hposv := dumpsV_length_pos val
      cases tl with
      | nil =>
        have hnbv : hasNBV val = true := by simpa [hasNBO] using hnb
        have hl : dumpsMembers (.cons k val .nil) =
            qChar :: escStr k ++ qChar :: ':' :: ' ' :: dumpsV val := rfl
        have hlen : (dumpsMembers (.cons k val .nil)).length =
            (escStr k).length + (dumpsV val).length + 4 := by
          rw [hl]
          simp
          omega
        cases f with
        | zero => exact absurd hfuel (by omega)
        | succ f2 =>
          have hshape : substQuotes (dumpsMembers (.cons k val .nil)) ++ '}' :: rest =
              apChar :: (escStr k ++ apChar ::
                (':' :: (' ' :: (substQuotes (dumpsV val) ++ '}' :: rest)))) := by
            rw [hl]
            simp +decide [substQuotes_append, substQuotes_cons, hesc]
          rw [hshape, litMembers1.eq_def]
          simp +decide only [lit_str f2 k
              (':' :: (' ' :: (substQuotes (dumpsV val) ++ '}' :: rest))) hqk hapk,
            skipWs_noop ':' _ (by decide), litValue_cons_ws (f2 + 1) ' ' _ (by decide),
            lit_fails_V val hokv hnbv (f2 + 1) ('}' :: rest) (by omega)]
      | cons k2 v2 tl2 =>
        have hl : dumpsMembers (.cons k val (.cons k2 v2 tl2)) =
            qChar :: escStr k ++ qChar :: ':' :: ' ' :: dumpsV val ++
              ',' :: ' ' :: dumpsMembers (.cons k2 v2 tl2) := rfl
        have hlen : (dumpsMembers (.cons k val (.cons k2 v2 tl2))).length =
            (escStr k).length + (dumpsV val).length +
              (dumpsMembers (.cons k2 v2 tl2)).length + 6 := by
          rw [hl]
          simp
          omega
        cases f with
        | zero => exact absurd hfuel (by omega)
        | succ f2 =>
          have hshape : substQuotes (dumpsMembers (.cons k val (.cons k2 v2 tl2))) ++
              '}' :: rest =
              apChar :: (escStr k ++ apChar :: (':' :: (' ' :: (substQuotes (dumpsV val) ++
                ',' :: (' ' :: (substQuotes (dumpsMembers (.cons k2 v2 tl2)) ++
                  '}' :: rest)))))) := by
            rw [hl]
            simp +decide [substQuotes_append, substQuotes_cons, hesc]
          rw [hshape, litMembers1.eq_def]
          by_cases hnbv : hasNBV val = true
          · simp +decide only [lit_str f2 k
                (':' :: (' ' :: (substQuotes (dumpsV val) ++
                  ',' :: (' ' :: (substQuotes (dumpsMembers (.cons k2 v2 tl2)) ++
                    '}' :: rest))))) hqk hapk,
              skipWs_noop ':' _ (by decide), litValue_cons_ws (f2 + 1) ' ' _ (by decide),
              lit_fails_V val hokv hnbv (f2 + 1) _ (by omega)]
          · rw [Bool.not_eq_true] at hnbv
            have htl : hasNBO (.cons k2 v2 tl2) = true := by
              have hh : (hasNBV val || hasNBO (.cons k2 v2 tl2)) = true := hnb
              rw [hnbv] at hh
              simpa using hh
            simp +decide only [lit_str f2 k
                (':' :: (' ' :: (substQuotes (dumpsV val) ++
                  ',' :: (' ' :: (substQuotes (dumpsMembers (.cons k2 v2 tl2)) ++
                    '}' :: rest))))) hqk hapk,
              skipWs_noop ':' _ (by decide), litValue_cons_ws (f2 + 1) ' ' _ (by decide),
              lit_roundtrip_V val hokv hnbv (f2 + 1) _ (by omega)
                (restStop_close ',' _ (Or.inr (Or.inr rfl))),
              skipWs_noop ',' _ (by decide)]
            rw [litMembers1_cons_ws (f2 + 1) ' ' _ (by decide),
              lit_fails_members (.cons k2 v2 tl2) hokt htl (f2 + 1) rest (by omega)]
            rfl

end

theorem upToLast_last (ch : Char) (l0 : List Char) :
    upToLast ch (l0 ++ [ch]) = l0 ++ [ch] := by
  unfold upToLast
  have h1 : (l0 ++ [ch]).reverse = ch :: l0.reverse := by simp
  rw [h1]
  have h2 : dropLeading (fun c => !(c = ch)) (ch :: l0.reverse) = ch :: l0.reverse := by
    simp [dropLeading]
  rw [h2]
  simp

theorem grabSpan_obj (X : List Char) :
    grabSpan ('{' :: (X ++ ['}'])) = some ('{' :: (X ++ ['}'])) := by
  have hcont : (X ++ ['}']).contains '}' = true := by simp
  simp [grabSpan, hcont, upToLast_last]

theorem grabSpan_arr (X : List Char) :
    grabSpan ('[' :: (X ++ [']'])) = some ('[' :: (X ++ [']'])) := by
  have hcont : (X ++ [']']).contains ']' = true := by simp
  simp +decide [grabSpan, hcont, upToLast_last]

theorem stripFence_not_bt (c : Char) (t : List Char) (h : ¬ c = btChar) :
    stripFence (c :: t) = c :: t := by
  cases t with
  | nil => rfl
  | cons c2 t2 =>
    cases t2 with
    | nil => rfl
    | cons c3 t3 => simp [stripFence, h]

theorem rstrip_noop (l : List Char) (e : Char) (hbt : ¬ e = btChar) (hnl : ¬ e = nlChar) :
    rstripTicksNl (l ++ [e]) = l ++ [e] := by
  unfold rstripTicksNl
  have h1 : (l ++ [e]).reverse = e :: l.reverse := by simp
  rw [h1]
  have h2 : dropLeading (fun c => c = btChar || c = nlChar) (e :: l.reverse) =
      e :: l.reverse := by
    simp [dropLeading, hbt, hnl]
  rw [h2]
  simp

theorem dropLeading_all (p : Char → Bool) (l1 : List Char) (c0 : Char) (t : List Char)
    (h1 : ∀ c ∈ l1, p c = true) (h0 : p c0 = false) :
    dropLeading p (l1 ++ c0 :: t) = c0 :: t := by
  induction l1 with
  | nil => simp [dropLeading, h0]
  | cons a l ih =>
    have ha : p a = true := h1 a (by simp)
    simp only [List.cons_append, dropLeading, ha, if_true]
    exact ih (fun c hc => h1 c (by simp [hc]))

theorem stripFence_fenceWrap (lang s : List Char)
    (hl : ∀ c ∈ lang, isAsciiAlpha c = true) :
    stripFence (fenceWrap lang s) = s ++ nlChar :: [btChar, btChar, btChar] := by
  have hfw : fenceWrap lang s = btChar :: btChar :: btChar ::
      (lang ++ nlChar :: (s ++ nlChar :: [btChar, btChar, btChar])) := by
    simp [fenceWrap]
  rw [hfw]
  have hdrop : dropLeading isAsciiAlpha
      (lang ++ nlChar :: (s ++ nlChar :: [btChar, btChar, btChar])) =
      nlChar :: (s ++ nlChar :: [btChar, btChar, btChar]) :=
    dropLeading_all isAsciiAlpha lang nlChar _ hl (by decide)
  simp +decide [stripFence, hdrop]

theorem rstrip_fence_tail (s : List Char) (hs : rstripTicksNl s = s) :
    rstripTicksNl (s ++ nlChar :: [btChar, btChar, btChar]) = s := by
  unfold rstripTicksNl at hs ⊢
  have hrev : (s ++ nlChar :: [btChar, btChar, btChar]).reverse =
      btChar :: btChar :: btChar :: nlChar :: s.reverse := by simp
  rw [hrev]
  simp +decide only [dropLeading]
  exact hs

theorem candidateOf_self (text : List Char) (h1 : stripFence text = text)
    (h2 : rstripTicksNl text = text) (h3 : grabSpan text = some text) :
    candidateOf text = text := by
  simp only [candidateOf]
  rw [h1, h2, h3]
  rfl

theorem candidateOf_fenced (lang s X : List Char) (hl : ∀ c ∈ lang, isAsciiAlpha c = true)
    (hs : rstripTicksNl s = s) (hg : grabSpan s = some X) :
    candidateOf (fenceWrap lang s) = X := by
  simp only [candidateOf]
  rw [stripFence_fenceWrap lang s hl, rstrip_fence_tail s hs, hg]
  rfl

theorem structured_facts (v : JValue) (h : isStructured v = true) :
    rstripTicksNl (dumpsV v) = dumpsV v ∧ grabSpan (dumpsV v) = some (dumpsV v) ∧
    rstripTicksNl (substQuotes (dumpsV v)) = substQuotes (dumpsV v) ∧
    grabSpan (substQuotes (dumpsV v)) = some (substQuotes (dumpsV v)) ∧
    stripFence (dumpsV v) = dumpsV v ∧
    stripFence (substQuotes (dumpsV v)) = substQuotes (dumpsV v) := by
  have hshape : ∃ o X e, dumpsV v = (o :: X) ++ [e] ∧
      substQuotes (dumpsV v) = (o :: substQuotes X) ++ [e] ∧ ¬ o = btChar ∧
      ((o = '{' ∧ e = '}') ∨ (o = '[' ∧ e = ']')) := by
    cases v with
    | null => simp [isStructured] at h
    | bool b => simp [isStructured] at h
    | num n => simp [isStructured] at h
    | str s => simp [isStructured] at h
    | arr items =>
      cases items with
      | nil => exact ⟨'[', [], ']', rfl, rfl, by decide, Or.inr ⟨rfl, rfl⟩⟩
      | cons a tl =>
        refine ⟨'[', dumpsItems (.cons a tl), ']', ?_, ?_, by decide, Or.inr ⟨rfl, rfl⟩⟩
        · simp [dumpsV]
        · have hd2 : dumpsV (JValue.arr (.cons a tl)) =
              '[' :: (dumpsItems (.cons a tl) ++ [']']) := by simp [dumpsV]
          rw [hd2, substQuotes_cons, substQuotes_append]
          simp +decide [substQuotes]
    | obj members =>
      cases members with
      | nil => exact ⟨'{', [], '}', rfl, rfl, by decide, Or.inl ⟨rfl, rfl⟩⟩
      | cons k v2 tl =>
        refine ⟨'{', dumpsMembers (.cons k v2 tl), '}', ?_, ?_, by decide,
          Or.inl ⟨rfl, rfl⟩⟩
        · simp [dumpsV]
        · have hd2 : dumpsV (JValue.obj (.cons k v2 tl)) =
              '{' :: (dumpsMembers (.cons k v2 tl) ++ ['}']) := by simp [dumpsV]
          rw [hd2, substQuotes_cons, substQuotes_append]
          simp +decide [substQuotes]
  obtain ⟨o, X, e, hd, hs, hobt, hoe⟩ := hshape
  have hebt : ¬ e = btChar := by
    rcases hoe with ⟨_, he⟩ | ⟨_, he⟩ <;> (subst he; decide)
  have henl : ¬ e = nlChar := by
    rcases hoe with ⟨_, he⟩ | ⟨_, he⟩ <;> (subst he; decide)
  refine ⟨?_, ?_, ?_, ?_, ?_, ?_⟩
  · rw [hd]
    exact rstrip_noop (o :: X) e hebt henl
  · rw [hd]
    rcases hoe with ⟨ho, he⟩ | ⟨ho, he⟩
    · subst ho
      subst he
      exact grabSpan_obj X
    · subst ho
      subst he
      exact grabSpan_arr X
  · rw [hs]
    exact rstrip_noop (o :: substQuotes X) e hebt henl
  · rw [hs]
    rcases hoe with ⟨ho, he⟩ | ⟨ho, he⟩
    · subst ho
      subst he
      exact grabSpan_obj (substQuotes X)
    · subst ho
      subst he
      exact grabSpan_arr (substQuotes X)
  · rw [hd]
    exact stripFence_not_bt o (X ++ [e]) hobt
  · rw [hs]
    exact stripFence_not_bt o (substQuotes X ++ [e]) hobt

theorem jsonLoads_dumps (v : JValue) : jsonLoads (dumpsV v) = some v := by
  unfold jsonLoads
  have h1 : jpValue ((dumpsV v).length + 1) (dumpsV v) = some (v, []) := by
    have h2 := jp_roundtrip_V v ((dumpsV v).length + 1) [] (by omega) rfl
    simpa using h2
  rw [h1]
  rfl

theorem substQuotes_length (l : List Char) : (substQuotes l).length = l.length := by
  simp [substQuotes]

theorem jsonLoads_subst_none (v : JValue) (h : hasQuoteV v = true) :
    jsonLoads (substQuotes (dumpsV v)) = none := by
  unfold jsonLoads
  have h1 : jpValue ((substQuotes (dumpsV v)).length + 1) (substQuotes (dumpsV v)) = none := by
    have h2 := jp_fails_V v h ((substQuotes (dumpsV v)).length + 1) []
      (by rw [substQuotes_length]; omega)
    simpa using h2
  rw [h1]

theorem litEval_subst (v : JValue) (hok : strOkV v = true) (hnb : hasNBV v = false) :
    litEval (substQuotes (dumpsV v)) = some v := by
  unfold litEval
  have h1 : litValue ((substQuotes (dumpsV v)).length + 1) (substQuotes (dumpsV v)) =
      some (v, []) := by
    have h2 := lit_roundtrip_V v hok hnb ((substQuotes (dumpsV v)).length + 1) []
      (by rw [substQuotes_length]; omega) rfl
    simpa using h2
  rw [h1]
  rfl

theorem litEval_subst_none (v : JValue) (hok : strOkV v = true) (hnb : hasNBV v = true) :
    litEval (substQuotes (dumpsV v)) = none := by
  unfold litEval
  have h1 : litValue ((substQuotes (dumpsV v)).length + 1) (substQuotes (dumpsV v)) =
      none := by
    have h2 := lit_fails_V v hok hnb ((substQuotes (dumpsV v)).length + 1) []
      (by rw [substQuotes_length]; omega)
    simpa using h2
  rw [h1]

theorem swapQuotes_subst_dumps (v : JValue) (hok : strOkV v = true) :
    swapQuotes (substQuotes (dumpsV v)) = dumpsV v :=
  swapQuotes_substQuotes _ (noAp_dumpsV v hok)

theorem dumpsV_ne_nil (v : JValue) : ¬ dumpsV v = [] := by
  have h := dumpsV_length_pos v
  intro he
  rw [he] at h
  simp at h

theorem substQuotes_dumps_ne_nil (v : JValue) : ¬ substQuotes (dumpsV v) = [] := by
  intro he
  have h := dumpsV_length_pos v
  have h2 := substQuotes_length (dumpsV v)
  rw [he] at h2
  simp at h2
  omega

theorem fenceWrap_ne_nil (lang s : List Char) : ¬ fenceWrap lang s = [] := by
  intro he
  have h : fenceWrap lang s = btChar :: btChar :: btChar ::
      (lang ++ nlChar :: (s ++ nlChar :: [btChar, btChar, btChar])) := by
    simp [fenceWrap]
  rw [h] at he
  cases he

theorem extract_eval (text : List Char) (hne : ¬ text = []) :
    extract_json_from_text text =
      match jsonLoads (candidateOf text) with
      | some v => .ok v
      | none =>
        match litEval (candidateOf text) with
        | some v => .ok v
        | none =>
          match jsonLoads (swapQuotes (candidateOf text)) with
          | some v => .ok v
          | none => .error (parseFailMsg (candidateOf text)) := by
  unfold extract_json_from_text
  rw [if_neg hne]

theorem extract_strategy_plain (v : JValue) (text : List Char) (hne : ¬ text = [])
    (hcand : candidateOf text = dumpsV v) :
    extract_json_from_text text = .ok v := by
  rw [extract_eval text hne, hcand, jsonLoads_dumps]

theorem extract_strategy_subst (v : JValue) (text : List Char) (hne : ¬ text = [])
    (hok : strOkV v = true) (hcand : candidateOf text = substQuotes (dumpsV v)) :
    extract_json_from_text text = .ok v := by
  rw [extract_eval text hne, hcand]
  by_cases hq : hasQuoteV v = true
  · rw [jsonLoads_subst_none v hq]
    by_cases hnb : hasNBV v = true
    · rw [litEval_subst_none v hok hnb, swapQuotes_subst_dumps v hok, jsonLoads_dumps]
    · rw [Bool.not_eq_true] at hnb
      rw [litEval_subst v hok hnb]
  · rw [Bool.not_eq_true] at hq
    rw [substQuotes_eq_of_not_mem _ (noQ_dumpsV v hq), jsonLoads_dumps]

/-- C7 (counterexample): the normaliser round-trip fails as the spec states it.
For the structured value with one string containing an apostrophe, the
single-quoted rendering of its serialisation defeats all three parse
strategies (strict JSON stops at the single quote, the Python literal parse
ends the string early at the embedded apostrophe, and the quote substitution
turns the apostrophe into a stray double quote), so the extraction raises
instead of recovering the value. -/
theorem roundtrip_counterexample :
    isStructured apostValue = true ∧
    extract_json_from_text (substQuotes (dumpsV apostValue)) =
      .error (parseFailMsg (substQuotes (dumpsV apostValue))) := ⟨rfl, rfl⟩

/-- C7 (amended): for every structured value none of whose strings or keys
contains a quote character, the serialisation is recovered exactly by
`_extract_json_from_text` in all four reachable wrappings: the plain
serialisation, the single-quoted rendering, and either of these inside a
fenced code block with an alphabetic language tag. -/
theorem roundtrip_amended (v : JValue) (lang : List Char)
    (hstruct : isStructured v = true) (hok : strOkV v = true)
    (hlang : ∀ c ∈ lang, isAsciiAlpha c = true) :
    extract_json_from_text (dumpsV v) = .ok v ∧
    extract_json_from_text (substQuotes (dumpsV v)) = .ok v ∧
    extract_json_from_text (fenceWrap lang (dumpsV v)) = .ok v ∧
    extract_json_from_text (fenceWrap lang (substQuotes (dumpsV v))) = .ok v := by
  obtain ⟨hrs1, hg1, hrs2, hg2, hsf1, hsf2⟩ := structured_facts v hstruct
  have hc1 : candidateOf (dumpsV v) = dumpsV v := candidateOf_self _ hsf1 hrs1 hg1
  have hc2 : candidateOf (substQuotes (dumpsV v)) = substQuotes (dumpsV v) :=
    candidateOf_self _ hsf2 hrs2 hg2
  have hcf1 : candidateOf (fenceWrap lang (dumpsV v)) = dumpsV v :=
    candidateOf_fenced lang _ _ hlang hrs1 hg1
  have hcf2 : candidateOf (fenceWrap lang (substQuotes (dumpsV v))) =
      substQuotes (dumpsV v) :=
    candidateOf_fenced lang _ _ hlang hrs2 hg2
  exact ⟨extract_strategy_plain v _ (dumpsV_ne_nil v) hc1,
    extract_strategy_subst v _ (substQuotes_dumps_ne_nil v) hok hc2,
    extract_strategy_plain v _ (fenceWrap_ne_nil lang _) hcf1,
    extract_strategy_subst v _ (fenceWrap_ne_nil lang _) hok hcf2⟩

/-- C7 witness: the amended round-trip at a concrete Draft Variants response
and the language tag `json`. -/
theorem roundtrip_amended_witness :
    extract_json_from_text (dumpsV oneTagParsed) = .ok oneTagParsed ∧
    extract_json_from_text (substQuotes (dumpsV oneTagParsed)) = .ok oneTagParsed ∧
    extract_json_from_text (fenceWrap ['j', 's', 'o', 'n'] (dumpsV oneTagParsed)) =
      .ok oneTagParsed ∧
    extract_json_from_text (fenceWrap ['j', 's', 'o', 'n']
      (substQuotes (dumpsV oneTagParsed))) = .ok oneTagParsed :=
  roundtrip_amended oneTagParsed ['j', 's', 'o', 'n'] rfl (by decide) (by decide)

end AiSocialPost
